import Mathlib

/-!
# Verification of `Translations/make_translation.py`

A shallow embedding of the asset-compilation pipeline of this repository:
the symbol-index encoder (`get_bytes_from_font_index`), the symbol
collector (`get_letter_counts`), the font-map/symbol-table builder
(`get_font_map_and_table`), the CJK glyph rasterizer (`get_cjk_glyph`),
the language-code validator (`validate_langcode_matches_content`) and the
suffix-sharing string-table compressor inside
`get_translation_strings_and_indices_text`.

Python integers are modelled as `Int`/`Nat` (Python `//` and `%` on the
reachable inputs — non-negative dividends, positive literal divisors —
agree with Lean's Euclidean `/` and `%` on `Int`).  Fallible code is
modelled with `Option`/`Except`: a `none`/`.error` value stands for the
raised exception or `sys.exit` of the source.  Byte strings are
`List Nat` of byte values.
-/

namespace MakeTranslation

/-- Embedding of `get_bytes_from_font_index` (make_translation.py:238-286).

Python source, guard by guard:
* `if index < 0: raise ValueError` → `none`;
* `page = (index + 0x0E) // 0xFF`;
* `if page > 0x0F: raise ValueError` → `none`;
* `if page == 0: return bytes([index])`;
* else `leader = page + 0xF0`, `value = ((index + 0x0E) % 0xFF) + 0x01`,
  `if leader > 0xFF or value > 0xFF: raise` → `none`, else
  `bytes([leader, value])`.

The result bytes are returned as natural numbers via `Int.toNat` (all are
non-negative on the reachable paths). -/
def get_bytes_from_font_index (index : Int) : Option (List Nat) :=
  if index < 0 then
    none
  else
    let page : Int := (index + 0x0E) / 0xFF
    if page > 0x0F then
      none
    else if page = 0 then
      some [index.toNat]
    else
      let leader : Int := page + 0xF0
      let value : Int := ((index + 0x0E) % 0xFF) + 0x01
      if leader > 0xFF ∨ value > 0xFF then
        none
      else
        some [leader.toNat, value.toNat]

/-- Modelled from the spec: the decoder described by claim C2's round-trip
property — a single byte `b` decodes to `b`; a two-byte sequence with
leader `0xF0 + page` (so leader ≥ 0xF1) and trailing byte `t` decodes to
`page * 255 + t - 15`.  There is no decoder in this repository's Python
source (it lives in the firmware); this definition follows the spec's
words for the round-trip claim. -/
def spec_decode_font_bytes : List Nat → Option Nat
  | [b] => some b
  | [l, t] => if 0xF1 ≤ l then some ((l - 0xF0) * 255 + t - 15) else none
  | _ => none

/-! ## Language-code validation (`validate_langcode_matches_content`) -/

/-- The slice `filename[12:-5]` of Python: characters at positions
`12 ≤ k < len - 5`. -/
def filename_slice (filename : List Char) : List Char :=
  (filename.take (filename.length - 5)).drop 12

/-- Embedding of `lang_code = filename[12:-5].upper()`
(make_translation.py:60).  Python's `str.upper()` is modelled by
`Char.toUpper` per character; the two agree on the ASCII codes used by the
`translation_<CODE>.json` filename convention. -/
def filename_lang_code (filename : List Char) : List Char :=
  (filename_slice filename).map Char.toUpper

/-- Embedding of `validate_langcode_matches_content`
(make_translation.py:58-71).  The JSON document is abstracted to its
`languageCode` field (`none` models the missing key, for which the code
substitutes the sentinel `"(missing)"`).  The result is `true` when the
function returns normally and `false` when it raises `ValueError`. -/
def validate_langcode_matches_content (filename : List Char)
    (languageCode : Option String) : Bool :=
  let lang_code := filename_lang_code filename
  let lang_code_from_json :=
    match languageCode with
    | some s => s.toList
    | none => "(missing)".toList
  lang_code == lang_code_from_json

/-- Modelled from the spec: the case-insensitive string match that claim
C10 describes ("matches the filename-derived code case-insensitively"). -/
def spec_case_insensitive_eq (a b : List Char) : Bool :=
  a.map Char.toUpper == b.map Char.toUpper

/-! ## Font map and symbol table (`get_font_map_and_table`) -/

/-- The failure modes of `get_font_map_and_table`
(make_translation.py:299-365).  `tooManySymbols` models the
`logging.error` + `sys.exit(1)` at lines 327-331 (spec:
ResourceLimitExceeded); the other constructors model the later
`ValueError`s / `sys.exit(1)`s of the function. -/
inductive FontMapError where
  | tooManySymbols
  | duplicateSymbol
  | indexOutOfRange
  | missingLargeFont
  | missingSmallFont
  | symbolInFontTable
  | missingCjkGlyph
  deriving DecidableEq

/-- Embedding of the `FontMap` dataclass (make_translation.py:293-296);
the Python dicts are modelled as insertion-ordered association lists. -/
structure FontMap where
  font12 : List (Char × String)
  font06 : List (Char × String)
  deriving DecidableEq

/-- `forced_first_symbols` (make_translation.py:306). -/
def forced_first_symbols : List Char :=
  ['0', '1', '2', '3', '4', '5', '6', '7', '8', '9']

/-- `ordered_normal_sym_list` (make_translation.py:316-318): the forced
digits followed by the non-digit symbols of `text_list` that are present
in the static font table, in `text_list` order. -/
def ordered_normal_sym_list (font_table : Char → Option String)
    (text_list : List Char) : List Char :=
  forced_first_symbols ++
    text_list.filter
      (fun x => decide (x ∉ forced_first_symbols) && (font_table x).isSome)

/-- `ordered_cjk_sym_list` (make_translation.py:319-321): the non-digit
symbols of `text_list` absent from the static font table. -/
def ordered_cjk_sym_list (font_table : Char → Option String)
    (text_list : List Char) : List Char :=
  text_list.filter
    (fun x => decide (x ∉ forced_first_symbols) && (font_table x).isNone)

/-- `total_symbol_count` (make_translation.py:323). -/
def total_symbol_count (font_table : Char → Option String)
    (text_list : List Char) : Nat :=
  (ordered_normal_sym_list font_table text_list).length +
    (ordered_cjk_sym_list font_table text_list).length

/-- The symbol-assignment loop of `get_font_map_and_table`
(make_translation.py:336-340): walk `sym_list` with a running index,
raising on a symbol already present in the map, and otherwise binding the
symbol to `get_bytes_from_font_index index`. -/
def build_symbol_map :
    List Char → Nat → List (Char × List Nat) →
      Except FontMapError (List (Char × List Nat))
  | [], _, m => .ok m
  | sym :: rest, index, m =>
    if (m.lookup sym).isSome then
      .error .duplicateSymbol
    else
      match get_bytes_from_font_index (index : Int) with
      | none => .error .indexOutOfRange
      | some bs => build_symbol_map rest (index + 1) (m ++ [(sym, bs)])

/-- The normal-symbol font loop (make_translation.py:344-352): every
symbol must have a large- and a small-font glyph. -/
def build_normal_font (font_table font_small_table : Char → Option String) :
    List Char → Except FontMapError (List (Char × String) × List (Char × String))
  | [] => .ok ([], [])
  | sym :: rest =>
    match font_table sym with
    | none => .error .missingLargeFont
    | some g12 =>
      match font_small_table sym with
      | none => .error .missingSmallFont
      | some g06 =>
        match build_normal_font font_table font_small_table rest with
        | .error e => .error e
        | .ok (f12, f06) => .ok ((sym, g12) :: f12, (sym, g06) :: f06)

/-- The small-font placeholder emitted for CJK symbols
(make_translation.py:363). -/
def small_font_placeholder : String := "//                                 "

/-- The CJK-symbol font loop (make_translation.py:354-363): a CJK symbol
must be absent from the static table and resolvable in the external font
(`cjk_glyph sym = none` models the failed glyph lookup of
`get_cjk_glyph`); the small font gets a placeholder. -/
def build_cjk_font (font_table cjk_glyph : Char → Option String) :
    List Char → Except FontMapError (List (Char × String) × List (Char × String))
  | [] => .ok ([], [])
  | sym :: rest =>
    if (font_table sym).isSome then
      .error .symbolInFontTable
    else
      match cjk_glyph sym with
      | none => .error .missingCjkGlyph
      | some line =>
        match build_cjk_font font_table cjk_glyph rest with
        | .error e => .error e
        | .ok (f12, f06) =>
          .ok ((sym, line) :: f12, (sym, small_font_placeholder) :: f06)

/-- Embedding of `get_font_map_and_table` (make_translation.py:299-365).
The external `font_tables.get_font_map()`, `get_small_font_map()` and the
CJK font resource are abstracted as lookup functions. -/
def get_font_map_and_table (font_table font_small_table cjk_glyph :
    Char → Option String) (text_list : List Char) :
    Except FontMapError (List Char × FontMap × List (Char × List Nat)) :=
  if total_symbol_count font_table text_list > (0x10 * 0xFF - 15) - 2 then
    .error .tooManySymbols
  else
    match build_symbol_map
        (ordered_normal_sym_list font_table text_list ++
          ordered_cjk_sym_list font_table text_list) 2 [('\n', [1])] with
    | .error e => .error e
    | .ok symbol_map =>
      match build_normal_font font_table font_small_table
          (ordered_normal_sym_list font_table text_list) with
      | .error e => .error e
      | .ok (n12, n06) =>
        match build_cjk_font font_table cjk_glyph
            (ordered_cjk_sym_list font_table text_list) with
        | .error e => .error e
        | .ok (c12, c06) =>
          .ok (ordered_normal_sym_list font_table text_list ++
              ordered_cjk_sym_list font_table text_list,
            ⟨n12 ++ c12, n06 ++ c06⟩, symbol_map)

/-- The symbol map produced by assigning the ten forced digits starting at
index 2 to the initial map `{'\n': [1]}`. -/
def digit_symbol_map : List (Char × List Nat) :=
  [('\n', [1]), ('0', [2]), ('1', [3]), ('2', [4]), ('3', [5]), ('4', [6]),
   ('5', [7]), ('6', [8]), ('7', [9]), ('8', [10]), ('9', [11])]

/-- A static font table covering exactly the forced digits, used to
instantiate witnesses. -/
def witness_font_table : Char → Option String :=
  fun c => if c ∈ forced_first_symbols then some "glyph" else none

/-! ## Symbol collection (`get_letter_counts`) -/

/-- Python `str.replace(old, rep)` on explicit character lists: scan left
to right, replacing non-overlapping occurrences of `old` (the uses in
`get_letter_counts` all have a non-empty `old`).  Structural recursion on
a fuel counter; every step consumes at least one character, so fuel
`s.length` (as used by `pyReplace`) always suffices. -/
def pyReplace_fuel (old rep : List Char) : Nat → List Char → List Char
  | _, [] => []
  | 0, s => s
  | fuel + 1, c :: rest =>
    if !old.isEmpty && old.isPrefixOf (c :: rest) then
      rep ++ pyReplace_fuel old rep fuel ((c :: rest).drop old.length)
    else
      c :: pyReplace_fuel old rep fuel rest

/-- Python `s.replace(old, rep)`. -/
def pyReplace (old rep s : List Char) : List Char :=
  pyReplace_fuel old rep s.length s

/-- The replacement chain of `get_letter_counts`
(make_translation.py:181-182):
`line.replace("\n", "").replace("\r", "").replace("\\n", "").replace("\\r", "")`. -/
def clean_line (l : List Char) : List Char :=
  pyReplace ['\\', 'r'] []
    (pyReplace ['\\', 'n'] []
      (pyReplace ['\r'] []
        (pyReplace ['\n'] [] l)))

/-- `symbol_counts[letter] = symbol_counts.get(letter, 0) + 1`
(make_translation.py:185) on an insertion-ordered association list:
an existing key is incremented in place, a new key is appended. -/
def bump_count : List (Char × Nat) → Char → List (Char × Nat)
  | [], c => [(c, 1)]
  | (k, v) :: rest, c =>
    if k = c then (k, v + 1) :: rest else (k, v) :: bump_count rest c

/-- The counting loop of `get_letter_counts` (make_translation.py:179-185)
over the collected text fragments (the JSON traversal assembling
`text_list` is abstracted as the input list of fragments). -/
def symbol_counts (text_list : List String) : List (Char × Nat) :=
  text_list.foldl
    (fun m line =>
      let l := clean_line line.toList
      if l.isEmpty then m else l.foldl bump_count m)
    []

/-- The Python sort key `lambda kv: (kv[1], kv[0])`
(make_translation.py:188): ascending by count, ties ascending by
character. -/
def count_key_le (a b : Char × Nat) : Prop :=
  a.2 < b.2 ∨ (a.2 = b.2 ∧ a.1 ≤ b.1)

instance : DecidableRel count_key_le := fun a b => by
  unfold count_key_le
  infer_instance

/-- Embedding of the ordering part of `get_letter_counts`
(make_translation.py:186-191): sort the count pairs ascending by
`(count, char)`, keep the characters, and reverse (highest count first).
Python's `sorted` is a stable sort, but all keys `(count, char)` are
distinct (characters are unique in `symbol_counts`), so the sorted
permutation is unique and `List.insertionSort` computes the same list. -/
def get_letter_counts (text_list : List String) : List Char :=
  ((List.insertionSort count_key_le (symbol_counts text_list)).map
    Prod.fst).reverse

/-- The occurrence count of a character in the collected text. -/
def occurrence_count (text_list : List String) (c : Char) : Nat :=
  ((symbol_counts text_list).lookup c).getD 0

/-- A static font table covering the digits and `'b'` (but not `'z'`),
used by the C7 counterexample. -/
def c7_font_table : Char → Option String :=
  fun c => if c ∈ ('b' :: forced_first_symbols) then some "g" else none

/-- The symbol list produced by the C7 counterexample run. -/
def c7_sym_list : List Char :=
  ['0', '1', '2', '3', '4', '5', '6', '7', '8', '9', 'b', 'z']

/-- The font map produced by the C7 counterexample run. -/
def c7_font_map : FontMap :=
  ⟨[('0', "g"), ('1', "g"), ('2', "g"), ('3', "g"), ('4', "g"), ('5', "g"), ('6', "g"), ('7', "g"), ('8', "g"), ('9', "g"), ('b', "g"), ('z', "g")],
   [('0', "g"), ('1', "g"), ('2', "g"), ('3', "g"), ('4', "g"), ('5', "g"), ('6', "g"), ('7', "g"), ('8', "g"), ('9', "g"), ('b', "g"), ('z', small_font_placeholder)]⟩

/-- The symbol map produced by the C7 counterexample run. -/
def c7_symbol_map : List (Char × List Nat) :=
  [('\n', [1]), ('0', [2]), ('1', [3]), ('2', [4]), ('3', [5]), ('4', [6]),
   ('5', [7]), ('6', [8]), ('7', [9]), ('8', [10]), ('9', [11]),
   ('b', [12]), ('z', [13])]

/-- A static font table covering the digits, `'b'` and `'c'`, used by the
C7 witness. -/
def c7_witness_font_table : Char → Option String :=
  fun c => if c ∈ ('b' :: 'c' :: forced_first_symbols) then some "g" else none

/-- The symbol list produced by the C7 witness run. -/
def c7_witness_sym_list : List Char :=
  ['0', '1', '2', '3', '4', '5', '6', '7', '8', '9', 'b', 'c']

/-- The font map produced by the C7 witness run. -/
def c7_witness_font_map : FontMap :=
  ⟨[('0', "g"), ('1', "g"), ('2', "g"), ('3', "g"), ('4', "g"), ('5', "g"), ('6', "g"), ('7', "g"), ('8', "g"), ('9', "g"), ('b', "g"), ('c', "g")],
   [('0', "g"), ('1', "g"), ('2', "g"), ('3', "g"), ('4', "g"), ('5', "g"), ('6', "g"), ('7', "g"), ('8', "g"), ('9', "g"), ('b', "g"), ('c', "g")]⟩

/-- The symbol map produced by the C7 witness run. -/
def c7_witness_symbol_map : List (Char × List Nat) :=
  [('\n', [1]), ('0', [2]), ('1', [3]), ('2', [4]), ('3', [5]), ('4', [6]),
   ('5', [7]), ('6', [8]), ('7', [9]), ('8', [10]), ('9', [11]),
   ('b', [12]), ('c', [13])]

/-! ## CJK glyph rasterizer (`get_cjk_glyph`) -/

/-- A source glyph of the bitmap font resource as used by
`get_cjk_glyph` (make_translation.py:194-235): the row-major bit data
(`data[0]` is the bottom-most row, the least-significant bit of a row is
the right-most pixel) and the bounding box returned by
`glyph.get_bounding_box()`. -/
structure SrcGlyph where
  data : List Nat
  src_left : Int
  src_bottom : Int
  src_w : Nat
  src_h : Nat

/-- Embedding of the nested `get_cell` (make_translation.py:205-220):
destination coordinates `(x, y)` with origin at the top-left of the fixed
12×16 cell; `dst_h = 16`; the Python `data[...] & (1 << ...)` nonzero test
is a single-bit test. -/
def get_cell (g : SrcGlyph) (x y : Nat) : Bool :=
  let adj_x : Int := (x : Int) - g.src_left
  if adj_x < 0 ∨ (g.src_w : Int) ≤ adj_x then false
  else
    let adj_y : Int := (y : Int) - (16 - (g.src_h : Int) - g.src_bottom - 3)
    if adj_y < 0 ∨ (g.src_h : Int) ≤ adj_y then false
    else
      Nat.testBit (g.data.getD ((g.src_h : Int) - adj_y - 1).toNat 0)
        (((g.src_w : Int) - adj_x - 1).toNat)

/-- The inner byte-assembly loop of `get_cjk_glyph`
(make_translation.py:230-233): bit `r` of the byte for column `c` of a
block is set when row `r + 8*block` of that column is lit. -/
def glyph_column_byte (g : SrcGlyph) (block c : Nat) : Nat :=
  (List.range 8).foldl
    (fun b r => if get_cell g c (r + 8 * block) then b ||| (1 <<< r) else b) 0

/-- One 8-row block of `get_cjk_glyph` (make_translation.py:228-234):
one byte per column, 12 columns (`dst_w = 12`). -/
def get_cjk_glyph_block (g : SrcGlyph) (block : Nat) : List Nat :=
  (List.range 12).map (glyph_column_byte g block)

/-- Embedding of `get_cjk_glyph` (make_translation.py:194-235): the top
block (rows 0–7) followed by the bottom block (rows 8–15).  The source
renders each byte as the string `"0x%02X,"`; we model the byte values. -/
def get_cjk_glyph (g : SrcGlyph) : List Nat :=
  get_cjk_glyph_block g 0 ++ get_cjk_glyph_block g 1

/-! ## String-table compressor
(`get_translation_strings_and_indices_text`, make_translation.py:578-655)

The compressor operates on the Symbol-encoded byte sequences of the
`str_table` entries (`convert_string_bytes` applied to each string);
the embedding takes that list of byte sequences (`converted`) as input.
The emitted C text is not modelled; the data computed — the
`str_remapping` array and the resolved `str_offsets` — is. -/

/-- The `RemappedTranslationItem` dataclass (make_translation.py:578-581). -/
structure RemappedTranslationItem where
  str_index : Nat
  str_start_offset : Nat
  deriving DecidableEq

/-- Python `bytes` comparison: strict lexicographic order on byte
sequences (a proper prefix is smaller). -/
def bytesLt : List Nat → List Nat → Bool
  | [], [] => false
  | [], _ :: _ => true
  | _ :: _, [] => false
  | a :: as, b :: bs => decide (a < b) || (decide (a = b) && bytesLt as bs)

/-- The ordering used by `sorted(..., key=lambda x: x[2])`
(make_translation.py:590-596) on `(str_index, reversed-bytes)` entries:
by reversed bytes, ties by original index.  Python's `sorted` is stable,
and the indices are pairwise distinct, so its output is exactly the list
sorted by this (total, antisymmetric) relation. -/
def entry_le (x y : Nat × List Nat) : Prop :=
  bytesLt x.2 y.2 = true ∨ (x.2 = y.2 ∧ x.1 ≤ y.1)

instance : DecidableRel entry_le := fun x y => by
  unfold entry_le
  infer_instance

/-- `backward_sorted_table` (make_translation.py:590-596): each entry of
`str_table` paired with its index and byte-reversed encoded form, sorted
by the reversed bytes.  (The middle component `s` of the Python triple is
redundant and dropped.) -/
def backward_sorted_table (converted : List (List Nat)) :
    List (Nat × List Nat) :=
  List.insertionSort entry_le
    (converted.enum.map (fun p => (p.1, p.2.reverse)))

/-- The inner `while backward_sorted_table[j + 1][2].startswith(converted)`
scan (make_translation.py:599-601), walking the entries after position
`j`; reaching the end of the list models the `IndexError` that
`backward_sorted_table[j + 1]` raises there. -/
def scan_run_aux (conv : List Nat) :
    List (Nat × List Nat) → Nat → Except Unit Nat
  | [], _ => .error ()
  | e :: rest, j =>
    if conv.isPrefixOf e.2 then scan_run_aux conv rest (j + 1) else .ok j

/-- The scan starting at position `j` (`j = i` initially); the candidates
examined are `bst[j+1], bst[j+2], ...`. -/
def scan_run (bst : List (Nat × List Nat)) (conv : List Nat) (j : Nat) :
    Except Unit Nat :=
  scan_run_aux conv (bst.drop (j + 1)) j

/-- The remapping loop (make_translation.py:597-606):
`for i, (str_index, source_str, converted) in enumerate(backward_sorted_table[:-1])`.
`fuel` is the number of remaining iterations (`bst.length - 1` at the
top); `i` the current position. -/
def remap_loop (bst : List (Nat × List Nat)) :
    Nat → Nat → List (Option RemappedTranslationItem) →
      Except Unit (List (Option RemappedTranslationItem))
  | 0, _, acc => .ok acc
  | fuel + 1, i, acc =>
    match scan_run bst (bst.getD i (0, [])).2 i with
    | .error e => .error e
    | .ok j =>
      let acc' :=
        if j ≠ i then
          acc.set (bst.getD i (0, [])).1
            (some ⟨(bst.getD j (0, [])).1,
              (bst.getD j (0, [])).2.length - (bst.getD i (0, [])).2.length⟩)
        else acc
      remap_loop bst fuel (i + 1) acc'

/-- `str_remapping` (make_translation.py:597-606): start from
`[None] * len(str_table)` and run the loop over `bst[:-1]`. -/
def str_remapping (bst : List (Nat × List Nat)) (n : Nat) :
    Except Unit (List (Option RemappedTranslationItem)) :=
  remap_loop bst (bst.length - 1) 0 (List.replicate n none)

/-- One pass of `for j in str_used_by` (make_translation.py:619-645):
every string aliased to root `i` gets offset `offset + str_start_offset`. -/
def set_used (offset : Int) (i : Nat) :
    List Int → List (Option RemappedTranslationItem) → List Int
  | [], _ => []
  | v :: vs, [] => v :: set_used offset i vs []
  | v :: vs, r :: rs =>
    (match r with
     | some rr =>
       if rr.str_index = i then offset + (rr.str_start_offset : Int) else v
     | none => v) :: set_used offset i vs rs

/-- The emission loop of the string table (make_translation.py:608-650):
walk `str_table` in discovery order, skip remapped strings, record the
root's offset and the offsets of all strings aliased to it, and advance
the running offset by the encoded length plus the null terminator. -/
def write_offsets_go (remap : List (Option RemappedTranslationItem)) :
    List (List Nat) → Nat → Int → List Int → List Int
  | [], _, _, acc => acc
  | s :: rest, i, offset, acc =>
    if (remap.getD i none).isSome then
      write_offsets_go remap rest (i + 1) offset acc
    else
      write_offsets_go remap rest (i + 1) (offset + (s.length : Int) + 1)
        ((set_used offset i acc remap).set i offset)

/-- `str_offsets` (make_translation.py:609-650), starting from
`[-1] * len(str_table)`. -/
def write_offsets (converted : List (List Nat))
    (remap : List (Option RemappedTranslationItem)) : List Int :=
  write_offsets_go remap converted 0 0
    (List.replicate converted.length (-1))

/-- The data core of `get_translation_strings_and_indices_text`
(make_translation.py:590-655): the suffix-merging remapping and the
resolved string offsets, both over the encoded byte sequences of
`str_table`.  An `.error` models the uncaught `IndexError` of the scan. -/
def suffix_compress (converted : List (List Nat)) :
    Except Unit
      (List (Option RemappedTranslationItem) × List Int) :=
  match str_remapping (backward_sorted_table converted)
      converted.length with
  | .error e => .error e
  | .ok remap => .ok (remap, write_offsets converted remap)

/-- Weak byte order. -/
def bytesLe (a b : List Nat) : Prop := bytesLt a b = true ∨ a = b

/-- Helper: for non-negative `index`, unfold the encoder on a `Nat` cast. -/
theorem get_bytes_ofNat (n : Nat) :
    get_bytes_from_font_index (n : Int) =
      if ((n : Int) + 0x0E) / 0xFF > 0x0F then none
      else if ((n : Int) + 0x0E) / 0xFF = 0 then some [n]
      else if ((n : Int) + 0x0E) / 0xFF + 0xF0 > 0xFF ∨
          ((n : Int) + 0x0E) % 0xFF + 0x01 > 0xFF then none
      else some [(((n : Int) + 0x0E) / 0xFF + 0xF0).toNat,
                 (((n : Int) + 0x0E) % 0xFF + 0x01).toNat] := by
  unfold get_bytes_from_font_index
  have h0 : ¬ ((n : Int) < 0) := by omega
  simp only [h0, if_false, Int.toNat_natCast]

/-- Helper: inside the assignable range the encoder never fails. -/
theorem get_bytes_isSome_of_le (i : Int) (h0 : 0 ≤ i) (h1 : i ≤ 4065) :
    ∃ bs, get_bytes_from_font_index i = some bs := by
  lift i to ℕ using h0
  rw [get_bytes_ofNat]
  split_ifs with ha hb hc
  · exfalso; omega
  · exact ⟨_, rfl⟩
  · exfalso; omega
  · exact ⟨_, rfl⟩

/-- C2: for `2 ≤ i ≤ 4065`, decoding the bytes produced by
`get_bytes_from_font_index i` (single byte `b` ↦ `b`; two bytes
`(0xF0 + page, t)` ↦ `page * 255 + t - 15`) yields `i` back, and the
encoder is injective on this range. -/
theorem get_bytes_from_font_index_roundtrip_injective :
    (∀ i : Int, 2 ≤ i → i ≤ 4065 → ∀ bs,
        get_bytes_from_font_index i = some bs →
        spec_decode_font_bytes bs = some i.toNat) ∧
    (∀ i j : Int, 2 ≤ i → i ≤ 4065 → 2 ≤ j → j ≤ 4065 →
        get_bytes_from_font_index i = get_bytes_from_font_index j → i = j) := by
  have round : ∀ i : Int, 2 ≤ i → i ≤ 4065 → ∀ bs,
      get_bytes_from_font_index i = some bs →
      spec_decode_font_bytes bs = some i.toNat := by
    intro i h2 h4065 bs hbs
    have h0 : (0 : Int) ≤ i := by omega
    lift i to ℕ using h0
    have ha : ¬ (((i : Int) + 0x0E) / 0xFF > 0x0F) := by omega
    rw [get_bytes_ofNat, if_neg ha] at hbs
    by_cases hb : ((i : Int) + 0x0E) / 0xFF = 0
    · -- single-byte page-0 branch
      rw [if_pos hb, Option.some.injEq] at hbs
      subst hbs
      simp only [spec_decode_font_bytes, Int.toNat_natCast]
    · -- two-byte branch
      have hc : ¬ (((i : Int) + 0x0E) / 0xFF + 0xF0 > 0xFF ∨
          ((i : Int) + 0x0E) % 0xFF + 0x01 > 0xFF) := by omega
      rw [if_neg hb, if_neg hc, Option.some.injEq] at hbs
      subst hbs
      simp only [spec_decode_font_bytes, Int.toNat_natCast]
      rw [if_pos (by omega), Option.some.injEq]
      omega
  refine ⟨round, fun i j hi2 hi4 hj2 hj4 hij => ?_⟩
  obtain ⟨bs, hbs⟩ := get_bytes_isSome_of_le i (by omega) hi4
  have hbs' : get_bytes_from_font_index j = some bs := by rw [← hij]; exact hbs
  have d1 := round i hi2 hi4 bs hbs
  have d2 := round j hj2 hj4 bs hbs'
  rw [d1, Option.some.injEq] at d2
  omega

/-- C3 as stated is false at the boundary `i = 240`: the code returns the
single byte `240` there (`page = (240 + 14) / 255 = 0`), while the claim
predicts the two-byte sequence `leader = 0xF0 + 0 = 0xF0`,
`trailing = ((240 + 14) % 255) + 1 = 0xFF`. -/
theorem get_bytes_from_font_index_240_single_byte :
    get_bytes_from_font_index 240 = some [240] ∧
    get_bytes_from_font_index 240 ≠ some [0xF0, 0xFF] := by
  constructor
  · decide
  · decide

/-- C3 (amended): for `i ≥ 0`, if `i ≤ 240` the encoder returns the single
byte `i`; if `i ≥ 241` it returns the two bytes
`(0xF0 + page, ((i + 14) % 255) + 1)` with `page = (i + 14) / 255`
whenever `page ≤ 15`; and it fails exactly when `page > 15`. -/
theorem get_bytes_from_font_index_spec (i : Int) (h0 : 0 ≤ i) :
    (i ≤ 240 → get_bytes_from_font_index i = some [i.toNat]) ∧
    (241 ≤ i → (i + 14) / 255 ≤ 15 →
      get_bytes_from_font_index i =
        some [(0xF0 + (i + 14) / 255).toNat, ((i + 14) % 255 + 1).toNat]) ∧
    ((i + 14) / 255 > 15 → get_bytes_from_font_index i = none) := by
  lift i to ℕ using h0
  refine ⟨fun h240 => ?_, fun h241 hpage => ?_, fun hpage => ?_⟩ <;>
    rw [get_bytes_ofNat]
  · rw [if_neg (by omega), if_pos (by omega)]
    simp
  · rw [if_neg (by omega), if_neg (by omega), if_neg (by omega)]
    simp only [Option.some.injEq, List.cons.injEq, and_true]
    omega
  · rw [if_pos (by omega)]

/-- C8: whenever the encoder returns a two-byte sequence, the second byte
lies in `[1, 255]` (in particular it is never `0x00`). -/
theorem get_bytes_from_font_index_second_byte_nonzero
    (i : Int) (h0 : 0 ≤ i) (l t : Nat)
    (h : get_bytes_from_font_index i = some [l, t]) :
    1 ≤ t ∧ t ≤ 255 := by
  lift i to ℕ using h0
  rw [get_bytes_ofNat] at h
  by_cases ha : (((i : Int) + 0x0E) / 0xFF > 0x0F)
  · rw [if_pos ha] at h
    exact absurd h (by simp)
  · rw [if_neg ha] at h
    by_cases hb : ((i : Int) + 0x0E) / 0xFF = 0
    · rw [if_pos hb, Option.some.injEq] at h
      exact absurd h (by simp)
    · rw [if_neg hb] at h
      by_cases hc : (((i : Int) + 0x0E) / 0xFF + 0xF0 > 0xFF ∨
          ((i : Int) + 0x0E) % 0xFF + 0x01 > 0xFF)
      · rw [if_pos hc] at h
        exact absurd h (by simp)
      · rw [if_neg hc] at h
        simp only [Option.some.injEq, List.cons.injEq, and_true] at h
        obtain ⟨-, ht⟩ := h
        omega

/-- Witness for C2 at `i = 300`: the encoder yields `[0xF1, 60]` and the
spec decoder maps it back to `300`. -/
theorem get_bytes_roundtrip_witness :
    spec_decode_font_bytes [0xF1, 60] = some (300 : Int).toNat :=
  get_bytes_from_font_index_roundtrip_injective.1 300 (by norm_num) (by norm_num)
    [0xF1, 60] (by decide)

/-- Witness for the amended C3 at `i = 241` and `i = 4066`. -/
theorem get_bytes_spec_witness :
    get_bytes_from_font_index 241 =
      some [(0xF0 + ((241 : Int) + 14) / 255).toNat, (((241 : Int) + 14) % 255 + 1).toNat] ∧
    get_bytes_from_font_index 4066 = none :=
  ⟨(get_bytes_from_font_index_spec 241 (by norm_num)).2.1 (by norm_num) (by decide),
   (get_bytes_from_font_index_spec 4066 (by norm_num)).2.2 (by decide)⟩

/-- Witness for C8 at `i = 300` (second byte `60`). -/
theorem get_bytes_second_byte_witness : 1 ≤ 60 ∧ 60 ≤ 255 :=
  get_bytes_from_font_index_second_byte_nonzero 300 (by norm_num) 0xF1 60 (by decide)

/-- `Char.ofNat` on a valid scalar value round-trips through `toNat`. -/
theorem char_toNat_ofNat_valid (n : Nat) (h : n.isValidChar) :
    (Char.ofNat n).toNat = n := by
  rw [Char.ofNat, dif_pos h]
  rfl

/-- `Char.toUpper` is idempotent. -/
theorem char_toUpper_toUpper (c : Char) : c.toUpper.toUpper = c.toUpper := by
  unfold Char.toUpper
  by_cases h : c.toNat ≥ 97 ∧ c.toNat ≤ 122
  · rw [if_pos h]
    have hval : (c.toNat - 32).isValidChar := by
      left
      have h2 := h.2
      have : c.toNat - 32 < 0xd800 := by omega
      exact_mod_cast this
    rw [if_neg]
    rw [char_toNat_ofNat_valid _ hval]
    omega
  · rw [if_neg h, if_neg h]

/-- C10 as stated is false: with filename `translation_EN.json` and
document code `"en"`, the document code matches the filename-derived code
case-insensitively, yet validation fails (the code compares the document
field verbatim against the *uppercased* filename code). -/
theorem validate_langcode_case_insensitive_counterexample :
    spec_case_insensitive_eq "en".toList
        (filename_slice "translation_EN.json".toList) = true ∧
    validate_langcode_matches_content "translation_EN.json".toList
        (some "en") = false := by
  constructor
  · decide
  · decide

/-- C10 (amended): validation succeeds iff the document's `languageCode`
matches the filename-derived code case-insensitively AND is itself written
in uppercase form (i.e. it equals the uppercased filename code verbatim);
a missing `languageCode` is compared against the sentinel `"(missing)"`. -/
theorem validate_langcode_matches_content_iff (filename : List Char)
    (code : String) :
    validate_langcode_matches_content filename (some code) = true ↔
      (spec_case_insensitive_eq code.toList (filename_slice filename) = true ∧
       ∀ c ∈ code.toList, c.toUpper = c) := by
  unfold validate_langcode_matches_content spec_case_insensitive_eq
      filename_lang_code
  simp only [beq_iff_eq]
  constructor
  · intro h
    have hrev : code.toList = (filename_slice filename).map Char.toUpper :=
      h.symm
    constructor
    · rw [hrev, List.map_map]
      congr 1
      funext c
      exact char_toUpper_toUpper c
    · intro c hc
      rw [hrev] at hc
      obtain ⟨d, -, rfl⟩ := List.mem_map.mp hc
      exact char_toUpper_toUpper d
  · rintro ⟨hci, hup⟩
    have hid : code.toList.map Char.toUpper = code.toList :=
      List.map_congr_left (fun c hc => hup c hc) |>.trans (List.map_id _)
    rw [hid] at hci
    exact hci.symm

/-- Witness for the amended C10 at filename `translation_DE.json`, document
code `"DE"`. -/
theorem validate_langcode_iff_witness :
    validate_langcode_matches_content "translation_DE.json".toList
        (some "DE") = true ↔
      (spec_case_insensitive_eq "DE".toList
          (filename_slice "translation_DE.json".toList) = true ∧
       ∀ c ∈ "DE".toList, c.toUpper = c) :=
  validate_langcode_matches_content_iff "translation_DE.json".toList "DE"

/-- `build_symbol_map` never signals the symbol-count limit. -/
theorem build_symbol_map_ne_tooMany (l : List Char) (i : Nat)
    (m : List (Char × List Nat)) :
    build_symbol_map l i m ≠ .error .tooManySymbols := by
  induction l generalizing i m with
  | nil => simp [build_symbol_map]
  | cons s rest ih =>
    unfold build_symbol_map
    split
    · simp
    · cases hbs : get_bytes_from_font_index (i : Int) with
      | none => simp
      | some bs => simpa using ih (i + 1) (m ++ [(s, bs)])

/-- `build_normal_font` never signals the symbol-count limit. -/
theorem build_normal_font_ne_tooMany (ft fs : Char → Option String)
    (l : List Char) :
    build_normal_font ft fs l ≠ .error .tooManySymbols := by
  induction l with
  | nil => simp [build_normal_font]
  | cons s rest ih =>
    unfold build_normal_font
    cases ft s with
    | none => simp
    | some g12 =>
      cases fs s with
      | none => simp
      | some g06 =>
        cases hrec : build_normal_font ft fs rest with
        | error e =>
          rw [hrec] at ih
          simpa using ih
        | ok p => cases p; simp [hrec]

/-- `build_cjk_font` never signals the symbol-count limit. -/
theorem build_cjk_font_ne_tooMany (ft cj : Char → Option String)
    (l : List Char) :
    build_cjk_font ft cj l ≠ .error .tooManySymbols := by
  induction l with
  | nil => simp [build_cjk_font]
  | cons s rest ih =>
    unfold build_cjk_font
    split
    · simp
    · cases cj s with
      | none => simp
      | some line =>
        cases hrec : build_cjk_font ft cj rest with
        | error e =>
          rw [hrec] at ih
          simpa using ih
        | ok p => cases p; simp [hrec]

/-- C4: `get_font_map_and_table` aborts with the symbol-count limit
(`logging.error` + `sys.exit(1)`, i.e. ResourceLimitExceeded, producing no
symbol table, font map or output) exactly when `total_symbol_count`
exceeds `(0x10 * 0xFF - 15) - 2 = 4063`. -/
theorem get_font_map_and_table_limit (ft fs cj : Char → Option String)
    (tl : List Char) :
    get_font_map_and_table ft fs cj tl = .error .tooManySymbols ↔
      total_symbol_count ft tl > 4063 := by
  unfold get_font_map_and_table
  by_cases h : total_symbol_count ft tl > (0x10 * 0xFF - 15) - 2
  · rw [if_pos h]
    simpa using h
  · rw [if_neg h]
    have hnum : ¬ total_symbol_count ft tl > 4063 := by
      simpa using h
    simp only [hnum, iff_false]
    cases hsm : build_symbol_map
        (ordered_normal_sym_list ft tl ++ ordered_cjk_sym_list ft tl) 2
        [('\n', [1])] with
    | error e =>
      have hne := build_symbol_map_ne_tooMany
        (ordered_normal_sym_list ft tl ++ ordered_cjk_sym_list ft tl) 2
        [('\n', [1])]
      rw [hsm] at hne
      simpa using hne
    | ok sm =>
      cases hnf : build_normal_font ft fs (ordered_normal_sym_list ft tl) with
      | error e =>
        have hne := build_normal_font_ne_tooMany ft fs (ordered_normal_sym_list ft tl)
        rw [hnf] at hne
        simpa using hne
      | ok p12 =>
        obtain ⟨n12, n06⟩ := p12
        cases hcf : build_cjk_font ft cj (ordered_cjk_sym_list ft tl) with
        | error e =>
          have hne := build_cjk_font_ne_tooMany ft cj (ordered_cjk_sym_list ft tl)
          rw [hcf] at hne
          simpa using hne
        | ok pc =>
          obtain ⟨c12, c06⟩ := pc
          simp [hsm, hnf, hcf]

/-- A key already bound in `m` keeps its binding under appending. -/
theorem lookup_append_left_symbolmap (m m2 : List (Char × List Nat)) (a : Char)
    (h : (m.lookup a).isSome) : (m ++ m2).lookup a = m.lookup a := by
  induction m with
  | nil => simp at h
  | cons kv rest ih =>
    obtain ⟨k, v⟩ := kv
    cases hak : (a == k) with
    | true => simp [List.lookup, hak]
    | false =>
      simp only [List.cons_append, List.lookup, hak] at h ⊢
      exact ih h

/-- `build_symbol_map` never rebinds a key that is already present. -/
theorem build_symbol_map_preserves (l : List Char) (i : Nat)
    (m out : List (Char × List Nat))
    (hok : build_symbol_map l i m = .ok out) (a : Char)
    (h : (m.lookup a).isSome) : out.lookup a = m.lookup a := by
  induction l generalizing i m with
  | nil =>
    simp only [build_symbol_map, Except.ok.injEq] at hok
    subst hok
    rfl
  | cons s rest ih =>
    unfold build_symbol_map at hok
    by_cases hdup : (m.lookup s).isSome
    · rw [if_pos hdup] at hok
      exact absurd hok (by simp)
    · rw [if_neg hdup] at hok
      cases hbs : get_bytes_from_font_index (i : Int) with
      | none =>
        rw [hbs] at hok
        exact absurd hok (by simp)
      | some bs =>
        rw [hbs] at hok
        have h' : ((m ++ [(s, bs)]).lookup a).isSome := by
          rw [lookup_append_left_symbolmap m _ a h]
          exact h
        rw [ih (i + 1) (m ++ [(s, bs)]) hok h',
          lookup_append_left_symbolmap m _ a h]

/-- Splitting `build_symbol_map` along a concatenation of the symbol
list. -/
theorem build_symbol_map_append (l1 l2 : List Char) (i : Nat)
    (m out : List (Char × List Nat))
    (hok : build_symbol_map (l1 ++ l2) i m = .ok out) :
    ∃ m1, build_symbol_map l1 i m = .ok m1 ∧
      build_symbol_map l2 (i + l1.length) m1 = .ok out := by
  induction l1 generalizing i m with
  | nil => exact ⟨m, rfl, by simpa using hok⟩
  | cons s rest ih =>
    rw [List.cons_append] at hok
    unfold build_symbol_map at hok
    by_cases hdup : (m.lookup s).isSome
    · rw [if_pos hdup] at hok
      exact absurd hok (by simp)
    · rw [if_neg hdup] at hok
      cases hbs : get_bytes_from_font_index (i : Int) with
      | none =>
        rw [hbs] at hok
        exact absurd hok (by simp)
      | some bs =>
        rw [hbs] at hok
        obtain ⟨m1, h1, h2⟩ := ih (i + 1) (m ++ [(s, bs)]) hok
        refine ⟨m1, ?_, ?_⟩
        · unfold build_symbol_map
          rw [if_neg hdup, hbs]
          exact h1
        · have hlen : i + (s :: rest).length = (i + 1) + rest.length := by
            simp only [List.length_cons]
            omega
          rw [hlen]
          exact h2

/-- C6: on any successful run of `get_font_map_and_table`, the forced
digits `'0'..'9'` occupy the first ten positions of the returned symbol
list (hence receive indices 2..11 in digit order, independently of their
occurrence counts), and the symbol map binds digit `k` to the single-byte
encoding of index `2 + k`. -/
theorem get_font_map_and_table_digit_indices
    (ft fs cj : Char → Option String) (tl : List Char)
    (sl : List Char) (fm : FontMap) (sm : List (Char × List Nat))
    (h : get_font_map_and_table ft fs cj tl = .ok (sl, fm, sm))
    (k : Nat) (hk : k < 10) :
    sl.take 10 = forced_first_symbols ∧
      sm.lookup (Char.ofNat (48 + k)) = some [2 + k] := by
  unfold get_font_map_and_table at h
  by_cases hcnt : total_symbol_count ft tl > (0x10 * 0xFF - 15) - 2
  · rw [if_pos hcnt] at h
    exact absurd h (by simp)
  · rw [if_neg hcnt] at h
    cases hsm : build_symbol_map
        (ordered_normal_sym_list ft tl ++ ordered_cjk_sym_list ft tl) 2
        [('\n', [1])] with
    | error e =>
      rw [hsm] at h
      exact absurd h (by simp)
    | ok sm0 =>
      rw [hsm] at h
      cases hnf : build_normal_font ft fs (ordered_normal_sym_list ft tl) with
      | error e =>
        rw [hnf] at h
        exact absurd h (by simp)
      | ok p =>
        obtain ⟨n12, n06⟩ := p
        rw [hnf] at h
        cases hcf : build_cjk_font ft cj (ordered_cjk_sym_list ft tl) with
        | error e =>
          rw [hcf] at h
          exact absurd h (by simp)
        | ok pc =>
          obtain ⟨c12, c06⟩ := pc
          rw [hcf] at h
          simp only [Except.ok.injEq, Prod.mk.injEq] at h
          obtain ⟨hsl, -, hsm_eq⟩ := h
          subst hsm_eq
          constructor
          · -- the first ten symbols are the forced digits
            rw [← hsl]
            unfold ordered_normal_sym_list
            rw [List.append_assoc]
            have h10 : (10 : Nat) = forced_first_symbols.length := by decide
            rw [h10, List.take_left]
          · unfold ordered_normal_sym_list at hsm
            rw [List.append_assoc] at hsm
            obtain ⟨m1, h1, h2⟩ := build_symbol_map_append _ _ _ _ _ hsm
            have hconc : build_symbol_map forced_first_symbols 2 [('\n', [1])]
                = .ok digit_symbol_map := by rfl
            rw [hconc, Except.ok.injEq] at h1
            subst h1
            interval_cases k <;>
              (rw [build_symbol_map_preserves _ _ _ _ h2 _ (by decide)]; decide)

/-- Witness for C6: a concrete successful run on an empty text list. -/
theorem get_font_map_digit_indices_witness :
    (['0', '1', '2', '3', '4', '5', '6', '7', '8', '9'] : List Char).take 10 =
        forced_first_symbols ∧
      digit_symbol_map.lookup (Char.ofNat (48 + 7)) = some [2 + 7] :=
  get_font_map_and_table_digit_indices witness_font_table witness_font_table
    (fun _ => none) []
    ['0', '1', '2', '3', '4', '5', '6', '7', '8', '9']
    ⟨[('0', "glyph"), ('1', "glyph"), ('2', "glyph"), ('3', "glyph"), ('4', "glyph"), ('5', "glyph"), ('6', "glyph"), ('7', "glyph"), ('8', "glyph"), ('9', "glyph")], [('0', "glyph"), ('1', "glyph"), ('2', "glyph"), ('3', "glyph"), ('4', "glyph"), ('5', "glyph"), ('6', "glyph"), ('7', "glyph"), ('8', "glyph"), ('9', "glyph")]⟩
    digit_symbol_map (by rfl) 7 (by norm_num)

instance : IsTotal (Char × Nat) count_key_le :=
  ⟨fun a b => by
    unfold count_key_le
    rcases Nat.lt_trichotomy a.2 b.2 with h | h | h
    · exact Or.inl (Or.inl h)
    · rcases Char.le_total a.1 b.1 with hc | hc
      · exact Or.inl (Or.inr ⟨h, hc⟩)
      · exact Or.inr (Or.inr ⟨h.symm, hc⟩)
    · exact Or.inr (Or.inl h)⟩

instance : IsTrans (Char × Nat) count_key_le :=
  ⟨fun a b c hab hbc => by
    unfold count_key_le at *
    rcases hab with h1 | ⟨h1, h1'⟩ <;> rcases hbc with h2 | ⟨h2, h2'⟩
    · exact Or.inl (h1.trans h2)
    · exact Or.inl (h2 ▸ h1)
    · exact Or.inl (h1 ▸ h2)
    · exact Or.inr ⟨h1.trans h2, Char.le_trans h1' h2'⟩⟩

/-- `bump_count` preserves distinctness of keys. -/
theorem bump_count_keys_nodup (m : List (Char × Nat)) (c : Char)
    (h : (m.map Prod.fst).Nodup) :
    ((bump_count m c).map Prod.fst).Nodup := by
  induction m with
  | nil => simp [bump_count]
  | cons kv rest ih =>
    obtain ⟨k, v⟩ := kv
    simp only [List.map_cons, List.nodup_cons] at h
    by_cases hk : k = c
    · simp only [bump_count, if_pos hk, List.map_cons, List.nodup_cons]
      exact h
    · simp only [bump_count, if_neg hk, List.map_cons, List.nodup_cons]
      refine ⟨fun hmem => ?_, ih h.2⟩
      -- k would have to be a key of `bump_count rest c`
      have hkeys : ∀ x, x ∈ (bump_count rest c).map Prod.fst →
          x ∈ rest.map Prod.fst ∨ x = c := by
        clear h ih hmem
        induction rest with
        | nil => intro x hx; simp [bump_count] at hx; exact Or.inr hx
        | cons kv2 rest2 ih2 =>
          obtain ⟨k2, v2⟩ := kv2
          intro x hx
          by_cases hk2 : k2 = c
          · simp only [bump_count, if_pos hk2, List.map_cons,
              List.mem_cons] at hx
            rcases hx with rfl | hx
            · exact Or.inl (by simp)
            · exact Or.inl (by simp [hx])
          · simp only [bump_count, if_neg hk2, List.map_cons,
              List.mem_cons] at hx
            rcases hx with rfl | hx
            · exact Or.inl (by simp)
            · rcases ih2 x hx with hx' | hx'
              · exact Or.inl (by simp [hx'])
              · exact Or.inr hx'
      rcases hkeys k hmem with hx | hx
      · exact h.1 hx
      · exact hk hx

/-- Folding `bump_count` over a line preserves distinctness of keys. -/
theorem foldl_bump_count_keys_nodup (l : List Char) (m : List (Char × Nat))
    (h : (m.map Prod.fst).Nodup) :
    ((l.foldl bump_count m).map Prod.fst).Nodup := by
  induction l generalizing m with
  | nil => exact h
  | cons c rest ih => exact ih _ (bump_count_keys_nodup m c h)

/-- The keys of `symbol_counts` are distinct. -/
theorem symbol_counts_keys_nodup (text_list : List String) :
    ((symbol_counts text_list).map Prod.fst).Nodup := by
  unfold symbol_counts
  generalize hinit : ([] : List (Char × Nat)) = init
  have h : (init.map Prod.fst).Nodup := by rw [← hinit]; simp
  clear hinit
  induction text_list generalizing init with
  | nil => exact h
  | cons line rest ih =>
    simp only [List.foldl_cons]
    by_cases he : (clean_line line.toList).isEmpty
    · rw [if_pos he]
      exact ih init h
    · rw [if_neg he]
      exact ih _ (foldl_bump_count_keys_nodup _ init h)

/-- On an association list with distinct keys, membership determines the
lookup. -/
theorem lookup_eq_some_of_mem_nodup (m : List (Char × Nat))
    (hnd : (m.map Prod.fst).Nodup) (c : Char) (v : Nat)
    (hm : (c, v) ∈ m) : m.lookup c = some v := by
  induction m with
  | nil => simp at hm
  | cons kv rest ih =>
    obtain ⟨k, w⟩ := kv
    simp only [List.map_cons, List.nodup_cons] at hnd
    rcases List.mem_cons.mp hm with heq | hmem
    · obtain ⟨rfl, rfl⟩ := Prod.mk.injEq .. ▸ heq
      simp [List.lookup]
    · have hne : ¬ (c == k) := by
        intro hck
        have : c = k := by simpa using hck
        subst this
        exact hnd.1 (by simpa using List.mem_map_of_mem Prod.fst hmem)
      simp only [List.lookup, Bool.not_eq_true] at hne ⊢
      rw [hne]
      exact ih hnd.2 hmem

/-- Members of `symbol_counts` carry their own occurrence count. -/
theorem occurrence_count_of_mem (text_list : List String) (c : Char) (v : Nat)
    (hm : (c, v) ∈ symbol_counts text_list) :
    occurrence_count text_list c = v := by
  unfold occurrence_count
  rw [lookup_eq_some_of_mem_nodup _ (symbol_counts_keys_nodup text_list) c v hm]
  rfl

/-- `get_letter_counts` lists characters in weakly decreasing occurrence
order. -/
theorem get_letter_counts_pairwise (text_list : List String) :
    (get_letter_counts text_list).Pairwise
      (fun a b => occurrence_count text_list b ≤ occurrence_count text_list a) := by
  unfold get_letter_counts
  rw [List.pairwise_reverse, List.pairwise_map]
  have hsorted : (List.insertionSort count_key_le
      (symbol_counts text_list)).Pairwise count_key_le :=
    List.sorted_insertionSort count_key_le (symbol_counts text_list)
  have hperm := List.perm_insertionSort count_key_le (symbol_counts text_list)
  refine hsorted.imp_of_mem ?_
  intro p q hp hq hle
  have hp' : p ∈ symbol_counts text_list := hperm.mem_iff.mp hp
  have hq' : q ∈ symbol_counts text_list := hperm.mem_iff.mp hq
  have hpv := occurrence_count_of_mem text_list p.1 p.2 (by simpa using hp')
  have hqv := occurrence_count_of_mem text_list q.1 q.2 (by simpa using hq')
  rw [hpv, hqv]
  rcases hle with h | ⟨h, -⟩
  · exact h.le
  · exact h.le

/-- In a list sorted weakly decreasing by `f`, a strictly larger `f`-value
sits at a position no later than a strictly smaller one. -/
theorem indexOf_le_of_pairwise (f : Char → Nat) (l : List Char)
    (hp : l.Pairwise (fun x y => f y ≤ f x)) (a b : Char)
    (hal : a ∈ l) (hbl : b ∈ l) (hfb : f b < f a) :
    l.indexOf a ≤ l.indexOf b := by
  by_contra hcon
  push_neg at hcon
  have hbl' : l.indexOf b < l.length := List.indexOf_lt_length.mpr hbl
  have hal' : l.indexOf a < l.length := List.indexOf_lt_length.mpr hal
  have := (List.pairwise_iff_getElem.mp hp) (l.indexOf b) (l.indexOf a)
    hbl' hal' hcon
  rw [List.getElem_indexOf hbl', List.getElem_indexOf hal'] at this
  omega

/-- On a successful run the returned symbol list is the normal symbols
followed by the CJK symbols. -/
theorem get_font_map_and_table_ok_sym_list (ft fs cj : Char → Option String)
    (tl sl : List Char) (fm : FontMap) (sm : List (Char × List Nat))
    (h : get_font_map_and_table ft fs cj tl = .ok (sl, fm, sm)) :
    sl = ordered_normal_sym_list ft tl ++ ordered_cjk_sym_list ft tl := by
  unfold get_font_map_and_table at h
  by_cases hcnt : total_symbol_count ft tl > (0x10 * 0xFF - 15) - 2
  · rw [if_pos hcnt] at h
    exact absurd h (by simp)
  · rw [if_neg hcnt] at h
    cases hsm : build_symbol_map
        (ordered_normal_sym_list ft tl ++ ordered_cjk_sym_list ft tl) 2
        [('\n', [1])] with
    | error e =>
      rw [hsm] at h
      exact absurd h (by simp)
    | ok sm0 =>
      rw [hsm] at h
      cases hnf : build_normal_font ft fs (ordered_normal_sym_list ft tl) with
      | error e =>
        rw [hnf] at h
        exact absurd h (by simp)
      | ok p =>
        obtain ⟨n12, n06⟩ := p
        rw [hnf] at h
        cases hcf : build_cjk_font ft cj (ordered_cjk_sym_list ft tl) with
        | error e =>
          rw [hcf] at h
          exact absurd h (by simp)
        | ok pc =>
          obtain ⟨c12, c06⟩ := pc
          rw [hcf] at h
          simp only [Except.ok.injEq, Prod.mk.injEq] at h
          exact h.1.symm

/-- C7 (amended): within one encoder partition — both symbols covered by
the static font table, or both extended — a non-digit symbol with a
strictly higher occurrence count is assigned an index no larger than one
with a lower count (positions in `sym_list`; the assigned index is
`2 + position`).  Across partitions this fails, because all extended
symbols are moved after all table-covered symbols. -/
theorem get_font_map_frequency_order_partitioned
    (tl : List String) (ft fs cj : Char → Option String)
    (sl : List Char) (fm : FontMap) (sm : List (Char × List Nat))
    (h : get_font_map_and_table ft fs cj (get_letter_counts tl) =
      .ok (sl, fm, sm))
    (a b : Char) (hA : a ∉ forced_first_symbols) (hB : b ∉ forced_first_symbols)
    (hamem : a ∈ get_letter_counts tl) (hbmem : b ∈ get_letter_counts tl)
    (hpart : (ft a).isSome = (ft b).isSome)
    (hocc : occurrence_count tl b < occurrence_count tl a) :
    sl.indexOf a ≤ sl.indexOf b := by
  have hsl := get_font_map_and_table_ok_sym_list ft fs cj _ sl fm sm h
  subst hsl
  have hpw := get_letter_counts_pairwise tl
  unfold ordered_normal_sym_list ordered_cjk_sym_list
  by_cases hfa : (ft a).isSome
  · -- both symbols are covered by the static font table
    have hfb : (ft b).isSome = true := by rw [← hpart]; exact hfa
    have hain : a ∈ (get_letter_counts tl).filter
        (fun x => decide (x ∉ forced_first_symbols) && (ft x).isSome) :=
      List.mem_filter.mpr ⟨hamem, by simp [hA, hfa]⟩
    have hbin : b ∈ (get_letter_counts tl).filter
        (fun x => decide (x ∉ forced_first_symbols) && (ft x).isSome) :=
      List.mem_filter.mpr ⟨hbmem, by simp [hB, hfb]⟩
    rw [List.indexOf_append_of_mem (List.mem_append.mpr (Or.inr hain)),
      List.indexOf_append_of_mem (List.mem_append.mpr (Or.inr hbin)),
      List.indexOf_append_of_not_mem hA, List.indexOf_append_of_not_mem hB]
    have hpf : ((get_letter_counts tl).filter
        (fun x => decide (x ∉ forced_first_symbols) && (ft x).isSome)).Pairwise
        (fun x y => occurrence_count tl y ≤ occurrence_count tl x) :=
      hpw.sublist (List.filter_sublist _)
    have := indexOf_le_of_pairwise (occurrence_count tl) _ hpf a b hain hbin hocc
    omega
  · -- both symbols are extended (absent from the static font table)
    have hfb : (ft b).isSome = false := by
      rw [← hpart]
      simpa using hfa
    have hfa' : (ft a).isSome = false := by simpa using hfa
    have hain : a ∈ (get_letter_counts tl).filter
        (fun x => decide (x ∉ forced_first_symbols) && (ft x).isNone) :=
      List.mem_filter.mpr ⟨hamem, by simp [hA, Option.isNone_iff_eq_none,
        ← Option.not_isSome_iff_eq_none, hfa']⟩
    have hbin : b ∈ (get_letter_counts tl).filter
        (fun x => decide (x ∉ forced_first_symbols) && (ft x).isNone) :=
      List.mem_filter.mpr ⟨hbmem, by simp [hB, Option.isNone_iff_eq_none,
        ← Option.not_isSome_iff_eq_none, hfb]⟩
    have hanot : a ∉ forced_first_symbols ++
        (get_letter_counts tl).filter
          (fun x => decide (x ∉ forced_first_symbols) && (ft x).isSome) := by
      intro hmem
      rcases List.mem_append.mp hmem with hmem | hmem
      · exact hA hmem
      · have := (List.mem_filter.mp hmem).2
        simp [hfa'] at this
    have hbnot : b ∉ forced_first_symbols ++
        (get_letter_counts tl).filter
          (fun x => decide (x ∉ forced_first_symbols) && (ft x).isSome) := by
      intro hmem
      rcases List.mem_append.mp hmem with hmem | hmem
      · exact hB hmem
      · have := (List.mem_filter.mp hmem).2
        simp [hfb] at this
    rw [List.indexOf_append_of_not_mem hanot,
      List.indexOf_append_of_not_mem hbnot]
    have hpf : ((get_letter_counts tl).filter
        (fun x => decide (x ∉ forced_first_symbols) && (ft x).isNone)).Pairwise
        (fun x y => occurrence_count tl y ≤ occurrence_count tl x) :=
      hpw.sublist (List.filter_sublist _)
    have := indexOf_le_of_pairwise (occurrence_count tl) _ hpf a b hain hbin hocc
    omega

/-- C7 as stated is false across partitions: with collected text
`["zzb"]`, the extended symbol `'z'` occurs twice and the table-covered
symbol `'b'` once, yet `'z'` is assigned position 11 (index 13) after
`'b'` at position 10 (index 12), because all extended symbols are moved
after all table-covered ones. -/
theorem get_font_map_frequency_order_counterexample :
    occurrence_count ["zzb"] 'b' < occurrence_count ["zzb"] 'z' ∧
    'z' ∉ forced_first_symbols ∧ 'b' ∉ forced_first_symbols ∧
    'z' ∈ get_letter_counts ["zzb"] ∧ 'b' ∈ get_letter_counts ["zzb"] ∧
    get_font_map_and_table c7_font_table c7_font_table (fun _ => some "g")
        (get_letter_counts ["zzb"]) =
      .ok (c7_sym_list, c7_font_map, c7_symbol_map) ∧
    ¬ c7_sym_list.indexOf 'z' ≤ c7_sym_list.indexOf 'b' :=
  ⟨by decide, by decide, by decide, by decide, by decide, by rfl, by decide⟩

/-- Witness for the amended C7: with text `["bbc"]`, both `'b'` and `'c'`
are table-covered, `'b'` occurs more often, and its position is earlier. -/
theorem get_font_map_frequency_order_witness :
    c7_witness_sym_list.indexOf 'b' ≤ c7_witness_sym_list.indexOf 'c' :=
  get_font_map_frequency_order_partitioned ["bbc"] c7_witness_font_table
    c7_witness_font_table (fun _ => some "g")
    c7_witness_sym_list c7_witness_font_map c7_witness_symbol_map
    (by rfl) 'b' 'c' (by decide) (by decide) (by decide) (by decide)
    (by decide) (by decide)

/-- Bits of an or-accumulation over `List.range`. -/
theorem range_foldl_or_testBit (f : Nat → Bool) (n : Nat) :
    ∀ (b0 r : Nat),
      (((List.range n).foldl
          (fun b i => if f i then b ||| (1 <<< i) else b) b0).testBit r)
        = (b0.testBit r || (decide (r < n) && f r)) := by
  induction n with
  | zero => intro b0 r; simp
  | succ n ih =>
    intro b0 r
    rw [List.range_succ, List.foldl_append]
    simp only [List.foldl_cons, List.foldl_nil]
    by_cases hf : f n
    · rw [if_pos hf, Nat.testBit_or, ih b0 r]
      have h1 : (1 <<< n) = 2 ^ n := by
        rw [Nat.shiftLeft_eq, one_mul]
      rw [h1, Nat.testBit_two_pow]
      by_cases hrn : r = n
      · subst hrn
        simp [hf]
      · have h2 : (decide (n = r)) = false := by
          simp only [decide_eq_false_iff_not]
          omega
        have h3 : (decide (r < n + 1)) = decide (r < n) := by
          by_cases hlt : r < n
          · simp [hlt, Nat.lt_succ_of_lt hlt]
          · have : ¬ r < n + 1 := by omega
            simp [hlt, this]
        rw [h2, h3]
        simp
    · rw [if_neg hf, ih b0 r]
      by_cases hrn : r = n
      · subst hrn
        simp [hf]
      · have h3 : (decide (r < n + 1)) = decide (r < n) := by
          by_cases hlt : r < n
          · simp [hlt, Nat.lt_succ_of_lt hlt]
          · have : ¬ r < n + 1 := by omega
            simp [hlt, this]
        rw [h3]

/-- Bit `r` of a column byte is the corresponding cell. -/
theorem glyph_column_byte_testBit (g : SrcGlyph) (block c r : Nat)
    (hr : r < 8) :
    (glyph_column_byte g block c).testBit r = get_cell g c (r + 8 * block) := by
  unfold glyph_column_byte
  rw [range_foldl_or_testBit (fun r => get_cell g c (r + 8 * block)) 8 0 r]
  simp [hr]

/-- C9: `get_cjk_glyph` emits exactly 24 bytes — two 8-row blocks of 12
column bytes — and bit `r` of byte `i` equals the cell test of
`get_cell` at column `i % 12`, row `r + 8 * (i / 12)` (the claim's
alignment and bit-order formulas are the definition of `get_cell`). -/
theorem get_cjk_glyph_spec (g : SrcGlyph) (i r : Nat) (hi : i < 24)
    (hr : r < 8) :
    (get_cjk_glyph g).length = 24 ∧
    ((get_cjk_glyph g).getD i 0).testBit r =
      get_cell g (i % 12) (r + 8 * (i / 12)) := by
  constructor
  · simp [get_cjk_glyph, get_cjk_glyph_block]
  · unfold get_cjk_glyph get_cjk_glyph_block
    rw [List.getD_eq_getElem?_getD, List.getElem?_append]
    by_cases h12 : i < 12
    · rw [if_pos (by simpa using h12)]
      rw [List.getElem?_map, List.getElem?_range h12]
      have hmod : i % 12 = i := Nat.mod_eq_of_lt h12
      have hdiv : i / 12 = 0 := Nat.div_eq_of_lt h12
      rw [hmod, hdiv]
      simpa using glyph_column_byte_testBit g 0 i r hr
    · rw [if_neg (by simpa using h12)]
      have hlen : ((List.range 12).map (glyph_column_byte g 0)).length = 12 := by
        simp
      rw [hlen]
      have hi12 : i - 12 < 12 := by omega
      rw [List.getElem?_map, List.getElem?_range hi12]
      have hmod : i % 12 = i - 12 := by omega
      have hdiv : i / 12 = 1 := by omega
      rw [hmod, hdiv]
      simpa using glyph_column_byte_testBit g 1 (i - 12) r hr

/-- Witness for C9: a concrete 2×2 glyph, byte 0, bit 0. -/
theorem get_cjk_glyph_spec_witness :
    (get_cjk_glyph ⟨[1, 2], 0, 0, 2, 2⟩).length = 24 ∧
    ((get_cjk_glyph ⟨[1, 2], 0, 0, 2, 2⟩).getD 0 0).testBit 0 =
      get_cell ⟨[1, 2], 0, 0, 2, 2⟩ (0 % 12) (0 + 8 * (0 / 12)) :=
  get_cjk_glyph_spec ⟨[1, 2], 0, 0, 2, 2⟩ 0 0 (by norm_num) (by norm_num)

/-- `bytesLt` is irreflexive. -/
theorem bytesLt_irrefl (a : List Nat) : bytesLt a a = false := by
  induction a with
  | nil => rfl
  | cons x xs ih => simp [bytesLt, ih]

/-- `bytesLt` is transitive. -/
theorem bytesLt_trans : ∀ a b c : List Nat,
    bytesLt a b = true → bytesLt b c = true → bytesLt a c = true
  | [], [], _, hab, _ => by simp [bytesLt] at hab
  | [], _ :: _, [], _, hbc => by simp [bytesLt] at hbc
  | [], _ :: _, _ :: _, _, _ => by simp [bytesLt]
  | _ :: _, [], _, hab, _ => by simp [bytesLt] at hab
  | _ :: _, _ :: _, [], _, hbc => by simp [bytesLt] at hbc
  | a :: as, b :: bs, c :: cs, hab, hbc => by
    simp only [bytesLt, Bool.or_eq_true, Bool.and_eq_true,
      decide_eq_true_eq] at hab hbc ⊢
    rcases hab with h1 | ⟨h1, h1'⟩ <;> rcases hbc with h2 | ⟨h2, h2'⟩
    · exact Or.inl (h1.trans h2)
    · exact Or.inl (h2 ▸ h1)
    · exact Or.inl (h1 ▸ h2)
    · exact Or.inr ⟨h1.trans h2, bytesLt_trans as bs cs h1' h2'⟩

/-- `bytesLt` trichotomy. -/
theorem bytesLt_trichotomy : ∀ a b : List Nat,
    a = b ∨ bytesLt a b = true ∨ bytesLt b a = true
  | [], [] => Or.inl rfl
  | [], _ :: _ => Or.inr (Or.inl (by simp [bytesLt]))
  | _ :: _, [] => Or.inr (Or.inr (by simp [bytesLt]))
  | a :: as, b :: bs => by
    rcases Nat.lt_trichotomy a b with h | h | h
    · exact Or.inr (Or.inl (by simp [bytesLt, h]))
    · subst h
      rcases bytesLt_trichotomy as bs with h' | h' | h'
      · exact Or.inl (by rw [h'])
      · exact Or.inr (Or.inl (by simp [bytesLt, h']))
      · exact Or.inr (Or.inr (by simp [bytesLt, h']))
    · exact Or.inr (Or.inr (by simp [bytesLt, h]))

/-- A proper prefix is strictly smaller in byte order. -/
theorem bytesLt_of_proper_prefix : ∀ p x : List Nat,
    p <+: x → p ≠ x → bytesLt p x = true
  | [], [], _, hne => absurd rfl hne
  | [], _ :: _, _, _ => by simp [bytesLt]
  | _ :: _, [], hpre, _ => by
    obtain ⟨t, ht⟩ := hpre
    simp at ht
  | a :: p, b :: x, hpre, hne => by
    obtain ⟨t, ht⟩ := hpre
    simp only [List.cons_append, List.cons.injEq] at ht
    obtain ⟨rfl, ht⟩ := ht
    have hpx : p <+: x := ⟨t, ht⟩
    have hne' : p ≠ x := by
      intro hcon
      exact hne (by rw [hcon])
    simp [bytesLt, bytesLt_of_proper_prefix p x hpx hne']

instance : IsTotal (Nat × List Nat) entry_le :=
  ⟨fun a b => by
    unfold entry_le
    rcases bytesLt_trichotomy a.2 b.2 with h | h | h
    · rcases Nat.le_total a.1 b.1 with h' | h'
      · exact Or.inl (Or.inr ⟨h, h'⟩)
      · exact Or.inr (Or.inr ⟨h.symm, h'⟩)
    · exact Or.inl (Or.inl h)
    · exact Or.inr (Or.inl h)⟩

instance : IsTrans (Nat × List Nat) entry_le :=
  ⟨fun a b c hab hbc => by
    unfold entry_le at *
    rcases hab with h1 | ⟨h1, h1'⟩ <;> rcases hbc with h2 | ⟨h2, h2'⟩
    · exact Or.inl (bytesLt_trans _ _ _ h1 h2)
    · exact Or.inl (h2 ▸ h1)
    · exact Or.inl (h1 ▸ h2)
    · exact Or.inr ⟨h1.trans h2, h1'.trans h2'⟩⟩

/-- `entry_le` is antisymmetric (indices break ties). -/
instance : IsAntisymm (Nat × List Nat) entry_le :=
  ⟨fun a b hab hba => by
    unfold entry_le at hab hba
    rcases hab with h1 | ⟨h1, h1'⟩ <;> rcases hba with h2 | ⟨h2, h2'⟩
    · have := bytesLt_trans _ _ _ h1 h2
      rw [bytesLt_irrefl] at this
      exact absurd this (by simp)
    · rw [h2] at h1
      rw [bytesLt_irrefl] at h1
      exact absurd h1 (by simp)
    · rw [h1] at h2
      rw [bytesLt_irrefl] at h2
      exact absurd h2 (by simp)
    · exact Prod.ext (Nat.le_antisymm h1' h2') h1⟩

/-- Sandwich lemma: a byte sequence lying (in lexicographic order) between
a prefix `p` and an extension of `p` itself extends `p`. -/
theorem prefix_of_bytesLe_sandwich : ∀ p x y : List Nat,
    bytesLe p x → bytesLe x y → p <+: y → p <+: x
  | [], _, _, _, _, _ => List.nil_prefix
  | a :: p, [], _, h1, _, _ => by
    rcases h1 with h1 | h1
    · simp [bytesLt] at h1
    · exact absurd h1 (by simp)
  | a :: p, c :: x, y, h1, h2, hpy => by
    obtain ⟨y', rfl, hpy'⟩ : ∃ y', y = a :: y' ∧ p <+: y' := by
      match y, hpy with
      | b :: y', hpy =>
        obtain ⟨t, ht⟩ := hpy
        simp only [List.cons_append, List.cons.injEq] at ht
        exact ⟨y', by rw [ht.1], ⟨t, ht.2⟩⟩
    rcases h1 with h1 | h1
    · simp only [bytesLt, Bool.or_eq_true, Bool.and_eq_true,
        decide_eq_true_eq] at h1
      rcases h1 with hac | ⟨rfl, h1'⟩
      · exfalso
        rcases h2 with h2 | h2
        · simp only [bytesLt, Bool.or_eq_true, Bool.and_eq_true,
            decide_eq_true_eq] at h2
          rcases h2 with h2 | ⟨h2, -⟩ <;> omega
        · injection h2 with h2a h2b
          omega
      · have hxy' : bytesLe x y' := by
          rcases h2 with h2 | h2
          · simp only [bytesLt, Bool.or_eq_true, Bool.and_eq_true,
              decide_eq_true_eq] at h2
            rcases h2 with h2 | ⟨-, h2⟩
            · exact absurd h2 (by omega)
            · exact Or.inl h2
          · injection h2 with h2a h2b
            exact Or.inr h2b
        obtain ⟨t', ht'⟩ := prefix_of_bytesLe_sandwich p x y' (Or.inl h1') hxy' hpy'
        exact ⟨t', by rw [List.cons_append, ht']⟩
    · rw [h1]

/-- The sorted table has one entry per string. -/
theorem backward_sorted_table_length (conv : List (List Nat)) :
    (backward_sorted_table conv).length = conv.length := by
  unfold backward_sorted_table
  rw [List.length_insertionSort, List.length_map, List.enum_length]

/-- The sorted table is a permutation of the enumerated reversed strings. -/
theorem backward_sorted_table_perm (conv : List (List Nat)) :
    (backward_sorted_table conv).Perm
      (conv.enum.map (fun p => (p.1, p.2.reverse))) :=
  List.perm_insertionSort entry_le _

/-- The sorted table is sorted by `entry_le`. -/
theorem backward_sorted_table_sorted (conv : List (List Nat)) :
    (backward_sorted_table conv).Pairwise entry_le :=
  List.sorted_insertionSort entry_le _

/-- Every entry of the sorted table is an in-range index paired with the
reversal of its string. -/
theorem backward_sorted_table_mem_elim (conv : List (List Nat))
    (e : Nat × List Nat) (he : e ∈ backward_sorted_table conv) :
    e.1 < conv.length ∧ e.2 = (conv.getD e.1 []).reverse := by
  have hmem := (backward_sorted_table_perm conv).mem_iff.mp he
  obtain ⟨p, hp, hpe⟩ := List.mem_map.mp hmem
  obtain ⟨i, hi, hpi⟩ := List.mem_iff_getElem.mp hp
  rw [List.getElem_enum] at hpi
  have hi' : i < conv.length := by
    rw [List.enum_length] at hi
    exact hi
  subst hpi
  subst hpe
  exact ⟨hi', by rw [List.getD_eq_getElem conv [] hi']⟩

/-- Conversely, every index contributes its entry to the sorted table. -/
theorem backward_sorted_table_mem_intro (conv : List (List Nat)) (i : Nat)
    (hi : i < conv.length) :
    (i, (conv.getD i []).reverse) ∈ backward_sorted_table conv := by
  rw [(backward_sorted_table_perm conv).mem_iff]
  refine List.mem_map.mpr ⟨(i, conv.getD i []), ?_, rfl⟩
  rw [List.mem_iff_getElem]
  refine ⟨i, by rw [List.enum_length]; exact hi, ?_⟩
  rw [List.getElem_enum, List.getD_eq_getElem conv [] hi]

/-- The original indices in the sorted table are pairwise distinct. -/
theorem backward_sorted_table_firsts_nodup (conv : List (List Nat)) :
    ((backward_sorted_table conv).map Prod.fst).Nodup := by
  have hperm := (backward_sorted_table_perm conv).map Prod.fst
  have heq : (conv.enum.map
      (fun p : Nat × List Nat => (p.1, p.2.reverse))).map Prod.fst =
      List.range conv.length := by
    rw [List.map_map]
    have hfun : (Prod.fst ∘ fun p : Nat × List Nat => (p.1, p.2.reverse)) =
        Prod.fst := rfl
    rw [hfun, List.enum_map_fst]
  rw [heq] at hperm
  exact hperm.nodup_iff.mpr (List.nodup_range _)

/-- Characterisation of a successful scan: it stops at the last position
of the contiguous run of entries extending `conv`, the entry after the
run exists and does not extend `conv`, and every entry strictly inside
the run does. -/
theorem scan_run_aux_ok (conv : List Nat) (bst : List (Nat × List Nat)) :
    ∀ (l : List (Nat × List Nat)) (j k : Nat), l = bst.drop (j + 1) →
      scan_run_aux conv l j = .ok k →
      j ≤ k ∧ k + 1 < bst.length ∧
      ¬ conv <+: (bst.getD (k + 1) (0, [])).2 ∧
      ∀ t, j < t → t ≤ k → conv <+: (bst.getD t (0, [])).2 := by
  intro l
  induction l generalizing bst with
  | nil =>
    intro j k _ hok
    simp [scan_run_aux] at hok
  | cons e rest ih =>
    intro j k hl hok
    have hj1 : j + 1 < bst.length := by
      by_contra hcon
      push_neg at hcon
      rw [List.drop_eq_nil_of_le hcon] at hl
      simp at hl
    have he : bst.getD (j + 1) (0, []) = e := by
      have h0 : bst[(j + 1) + 0]? = (bst.drop (j + 1))[0]? :=
        (List.getElem?_drop bst (j + 1) 0).symm
      rw [← hl] at h0
      simp only [List.getElem?_cons_zero] at h0
      rw [List.getD_eq_getElem?_getD]
      have : (j + 1) + 0 = j + 1 := rfl
      rw [this] at h0
      rw [h0]
      rfl
    have hrest : rest = bst.drop (j + 2) := by
      have h0 : bst.drop (j + 2) = (bst.drop (j + 1)).drop 1 := by
        rw [List.drop_drop]
      rw [← hl] at h0
      simpa using h0.symm
    unfold scan_run_aux at hok
    by_cases hpre : conv.isPrefixOf e.2
    · rw [if_pos hpre] at hok
      obtain ⟨h1, h2, h3, h4⟩ := ih bst (j + 1) k hrest hok
      refine ⟨by omega, h2, h3, ?_⟩
      intro t ht1 ht2
      by_cases htj : t = j + 1
      · subst htj
        rw [he]
        exact List.isPrefixOf_iff_prefix.mp hpre
      · exact h4 t (by omega) ht2
    · rw [if_neg hpre] at hok
      have hkj : k = j := by
        cases hok
        rfl
      subst hkj
      refine ⟨Nat.le_refl _, hj1, ?_, ?_⟩
      · rw [he]
        intro hcon
        exact hpre (List.isPrefixOf_iff_prefix.mpr hcon)
      · intro t ht1 ht2
        omega

/-- `scan_run` packaged form of `scan_run_aux_ok`. -/
theorem scan_run_ok (bst : List (Nat × List Nat)) (conv : List Nat)
    (j k : Nat) (hok : scan_run bst conv j = .ok k) :
    j ≤ k ∧ k + 1 < bst.length ∧
      ¬ conv <+: (bst.getD (k + 1) (0, [])).2 ∧
      ∀ t, j < t → t ≤ k → conv <+: (bst.getD t (0, [])).2 :=
  scan_run_aux_ok conv bst (bst.drop (j + 1)) j k rfl hok

/-- `getD` after `set` at the same (in-range) position. -/
theorem getD_set_self_of_lt {α : Type} (l : List α) (i : Nat) (v d : α)
    (h : i < l.length) : (l.set i v).getD i d = v := by
  rw [List.getD_eq_getElem _ _ (by rw [List.length_set]; exact h)]
  exact List.getElem_set_self _

/-- `getD` after `set` at a different position. -/
theorem getD_set_ne {α : Type} (l : List α) (i j : Nat) (v d : α)
    (h : i ≠ j) : (l.set i v).getD j d = l.getD j d := by
  rw [List.getD_eq_getElem?_getD, List.getD_eq_getElem?_getD,
    List.getElem?_set_ne h]

/-- `remap_loop` preserves the length of the accumulator. -/
theorem remap_loop_length (bst : List (Nat × List Nat)) :
    ∀ (fuel i : Nat) (acc out : List (Option RemappedTranslationItem)),
      remap_loop bst fuel i acc = .ok out → out.length = acc.length := by
  intro fuel
  induction fuel with
  | zero =>
    intro i acc out hok
    cases hok
    rfl
  | succ fuel ih =>
    intro i acc out hok
    unfold remap_loop at hok
    cases hscan : scan_run bst (bst.getD i (0, [])).2 i with
    | error e =>
      rw [hscan] at hok
      exact absurd hok (by simp)
    | ok j =>
      rw [hscan] at hok
      simp only [] at hok
      by_cases hj : j ≠ i
      · rw [if_pos hj] at hok
        rw [ih _ _ _ hok, List.length_set]
      · rw [if_neg hj] at hok
        exact ih _ _ _ hok

/-- Every position covered by a successful `remap_loop` had a successful
scan. -/
theorem remap_loop_scan_ok (bst : List (Nat × List Nat)) :
    ∀ (fuel i : Nat) (acc out : List (Option RemappedTranslationItem)),
      remap_loop bst fuel i acc = .ok out →
      ∀ p, i ≤ p → p < i + fuel →
        ∃ j, scan_run bst (bst.getD p (0, [])).2 p = .ok j := by
  intro fuel
  induction fuel with
  | zero =>
    intro i acc out _ p hp1 hp2
    omega
  | succ fuel ih =>
    intro i acc out hok p hp1 hp2
    unfold remap_loop at hok
    cases hscan : scan_run bst (bst.getD i (0, [])).2 i with
    | error e =>
      rw [hscan] at hok
      exact absurd hok (by simp)
    | ok j =>
      rw [hscan] at hok
      simp only [] at hok
      by_cases hpi : p = i
      · subst hpi
        exact ⟨j, hscan⟩
      · exact ih (i + 1) _ out hok p (by omega) (by omega)

/-- Cells whose index is not assigned in the covered range are untouched. -/
theorem remap_loop_untouched (bst : List (Nat × List Nat)) :
    ∀ (fuel i : Nat) (acc out : List (Option RemappedTranslationItem))
      (x : Nat),
      remap_loop bst fuel i acc = .ok out →
      (∀ p, i ≤ p → p < i + fuel → (bst.getD p (0, [])).1 ≠ x) →
      out.getD x none = acc.getD x none := by
  intro fuel
  induction fuel with
  | zero =>
    intro i acc out x hok _
    cases hok
    rfl
  | succ fuel ih =>
    intro i acc out x hok hx
    unfold remap_loop at hok
    cases hscan : scan_run bst (bst.getD i (0, [])).2 i with
    | error e =>
      rw [hscan] at hok
      exact absurd hok (by simp)
    | ok j =>
      rw [hscan] at hok
      simp only [] at hok
      by_cases hj : j ≠ i
      · rw [if_pos hj] at hok
        rw [ih (i + 1) _ out x hok (fun p h1 h2 => hx p (by omega) (by omega)),
          getD_set_ne _ _ _ _ _ (hx i (by omega) (by omega))]
      · rw [if_neg hj] at hok
        exact ih (i + 1) _ out x hok (fun p h1 h2 => hx p (by omega) (by omega))

/-- The final value of the cell assigned at position `p`: the scan result
at `p`, provided no other covered position carries the same string
index. -/
theorem remap_loop_cell (bst : List (Nat × List Nat)) :
    ∀ (fuel i : Nat) (acc out : List (Option RemappedTranslationItem))
      (p : Nat),
      remap_loop bst fuel i acc = .ok out →
      i ≤ p → p < i + fuel →
      (∀ q, i ≤ q → q < i + fuel → q ≠ p →
        (bst.getD q (0, [])).1 ≠ (bst.getD p (0, [])).1) →
      (bst.getD p (0, [])).1 < acc.length →
      ∃ j, scan_run bst (bst.getD p (0, [])).2 p = .ok j ∧
        out.getD (bst.getD p (0, [])).1 none =
          (if j ≠ p then
            some ⟨(bst.getD j (0, [])).1,
              (bst.getD j (0, [])).2.length - (bst.getD p (0, [])).2.length⟩
          else acc.getD (bst.getD p (0, [])).1 none) := by
  intro fuel
  induction fuel with
  | zero =>
    intro i acc out p _ hp1 hp2
    omega
  | succ fuel ih =>
    intro i acc out p hok hp1 hp2 hinj hlen
    unfold remap_loop at hok
    cases hscan : scan_run bst (bst.getD i (0, [])).2 i with
    | error e =>
      rw [hscan] at hok
      exact absurd hok (by simp)
    | ok j0 =>
      rw [hscan] at hok
      simp only [] at hok
      by_cases hpi : p = i
      · subst hpi
        refine ⟨j0, hscan, ?_⟩
        have huntouched := remap_loop_untouched bst fuel (p + 1) _ out
          (bst.getD p (0, [])).1 hok
          (fun q h1 h2 => hinj q (by omega) (by omega) (by omega))
        rw [huntouched]
        by_cases hj : j0 ≠ p
        · rw [if_pos hj, if_pos hj]
          exact getD_set_self_of_lt _ _ _ _ hlen
        · rw [if_neg hj, if_neg hj]
      · have hip : i < p := by omega
        by_cases hj : j0 ≠ i
        · rw [if_pos hj] at hok
          have hcell : (bst.getD i (0, [])).1 ≠ (bst.getD p (0, [])).1 :=
            hinj i (by omega) (by omega) (by omega)
          obtain ⟨j, hscan', hval⟩ := ih (i + 1) _ out p hok (by omega)
            (by omega) (fun q h1 h2 hq => hinj q (by omega) (by omega) hq)
            (by rw [List.length_set]; exact hlen)
          refine ⟨j, hscan', ?_⟩
          rw [hval]
          by_cases hjp : j ≠ p
          · rw [if_pos hjp, if_pos hjp]
          · rw [if_neg hjp, if_neg hjp,
              getD_set_ne _ _ _ _ _ hcell]
        · rw [if_neg hj] at hok
          exact ih (i + 1) _ out p hok (by omega) (by omega)
            (fun q h1 h2 hq => hinj q (by omega) (by omega) hq) hlen

/-- `getD` outside the list is the default. -/
theorem getD_out_of_range {α : Type} (l : List α) (j : Nat) (d : α)
    (h : l.length ≤ j) : l.getD j d = d := by
  rw [List.getD_eq_getElem?_getD, List.getElem?_eq_none h]
  rfl

/-- `set_used` preserves the length. -/
theorem set_used_length (offset : Int) (i : Nat) :
    ∀ (acc : List Int) (rm : List (Option RemappedTranslationItem)),
      (set_used offset i acc rm).length = acc.length := by
  intro acc
  induction acc with
  | nil => intro rm; cases rm <;> rfl
  | cons v vs ih =>
    intro rm
    cases rm with
    | nil => simpa [set_used] using ih []
    | cons r rs => simpa [set_used] using ih rs

/-- Pointwise description of `set_used` (the remapping list is never
longer than the offsets list in actual use). -/
theorem set_used_getD (offset : Int) (i : Nat) :
    ∀ (acc : List Int) (rm : List (Option RemappedTranslationItem)),
      rm.length ≤ acc.length → ∀ j : Nat,
      (set_used offset i acc rm).getD j 0 =
        (match rm.getD j none with
         | some rr =>
           if rr.str_index = i then offset + (rr.str_start_offset : Int)
           else acc.getD j 0
         | none => acc.getD j 0) := by
  intro acc
  induction acc with
  | nil =>
    intro rm hlen j
    have : rm = [] := List.eq_nil_of_length_eq_zero (by simpa using hlen)
    subst this
    simp [set_used]
  | cons v vs ih =>
    intro rm hlen j
    cases rm with
    | nil =>
      cases j with
      | zero => simp [set_used]
      | succ j' => simpa [set_used] using ih [] (by simp) j'
    | cons r rs =>
      cases j with
      | zero =>
        cases r with
        | none => simp [set_used]
        | some rr => by_cases hrr : rr.str_index = i <;> simp [set_used, hrr]
      | succ j' =>
        simpa [set_used] using ih rs (by simpa using hlen) j'

/-- `write_offsets_go` preserves the length of the offsets list. -/
theorem write_offsets_go_length (remap : List (Option RemappedTranslationItem)) :
    ∀ (conv' : List (List Nat)) (i0 : Nat) (offset : Int) (acc : List Int),
      (write_offsets_go remap conv' i0 offset acc).length = acc.length := by
  intro conv'
  induction conv' with
  | nil => intro i0 offset acc; rfl
  | cons s rest ih =>
    intro i0 offset acc
    unfold write_offsets_go
    by_cases hs : (remap.getD i0 none).isSome
    · rw [if_pos hs, ih]
    · rw [if_neg hs, ih, List.length_set, set_used_length]

/-- Cells of strings handled strictly before the current iteration are no
longer touched. -/
theorem write_offsets_go_untouched
    (remap : List (Option RemappedTranslationItem)) :
    ∀ (conv' : List (List Nat)) (i0 : Nat) (offset : Int) (acc : List Int)
      (j : Nat),
      remap.length ≤ acc.length →
      (match remap.getD j none with
       | none => j < i0
       | some r => r.str_index < i0) →
      (write_offsets_go remap conv' i0 offset acc).getD j 0 = acc.getD j 0 := by
  intro conv'
  induction conv' with
  | nil => intro i0 offset acc j _ _; rfl
  | cons s rest ih =>
    intro i0 offset acc j hlen hcond
    unfold write_offsets_go
    by_cases hs : (remap.getD i0 none).isSome
    · rw [if_pos hs]
      refine ih (i0 + 1) offset acc j hlen ?_
      cases hr : remap.getD j none with
      | none => rw [hr] at hcond; simp only [] at hcond ⊢; omega
      | some r => rw [hr] at hcond; simp only [] at hcond ⊢; omega
    · rw [if_neg hs]
      have hlen' : remap.length ≤
          ((set_used offset i0 acc remap).set i0 offset).length := by
        rw [List.length_set, set_used_length]
        exact hlen
      rw [ih (i0 + 1) _ _ j hlen' ?cond]
      case cond =>
        cases hr : remap.getD j none with
        | none => rw [hr] at hcond; simp only [] at hcond ⊢; omega
        | some r => rw [hr] at hcond; simp only [] at hcond ⊢; omega
      -- the cell j is untouched by this iteration
      cases hr : remap.getD j none with
      | none =>
        rw [hr] at hcond
        simp only [] at hcond
        have hji : j ≠ i0 := by omega
        rw [getD_set_ne _ _ _ _ _ (fun hcon => hji hcon.symm),
          set_used_getD offset i0 acc remap hlen j, hr]
      | some r =>
        rw [hr] at hcond
        simp only [] at hcond
        have hji : j ≠ i0 := by
          intro hcon
          subst hcon
          rw [hr] at hs
          simp at hs
        rw [getD_set_ne _ _ _ _ _ (fun hcon => hji hcon.symm),
          set_used_getD offset i0 acc remap hlen j, hr]
        simp only []
        rw [if_neg (by omega)]

/-- Offset relation: an aliased string's resolved offset is its root's
offset plus its start offset. -/
theorem write_offsets_go_rel
    (remap : List (Option RemappedTranslationItem)) :
    ∀ (conv' : List (List Nat)) (i0 : Nat) (offset : Int) (acc : List Int)
      (t j : Nat) (r : RemappedTranslationItem),
      remap.length ≤ acc.length →
      remap.getD t none = none →
      remap.getD j none = some r →
      r.str_index = t →
      i0 ≤ t → t - i0 < conv'.length →
      t < acc.length → j < acc.length →
      (write_offsets_go remap conv' i0 offset acc).getD j 0 =
        (write_offsets_go remap conv' i0 offset acc).getD t 0 +
          (r.str_start_offset : Int) := by
  intro conv'
  induction conv' with
  | nil =>
    intro i0 offset acc t j r _ _ _ _ h1 h2 _ _
    simp only [List.length_nil] at h2
    omega
  | cons s rest ih =>
    intro i0 offset acc t j r hlen ht hj hr hit hrange htacc hjacc
    unfold write_offsets_go
    by_cases hti : t = i0
    · subst hti
      have hs : ¬ (remap.getD t none).isSome = true := by
        rw [ht]
        simp
      rw [if_neg hs]
      have hjt : j ≠ t := by
        intro hcon
        subst hcon
        rw [ht] at hj
        cases hj
      have hlen' : remap.length ≤
          ((set_used offset t acc remap).set t offset).length := by
        rw [List.length_set, set_used_length]
        exact hlen
      rw [write_offsets_go_untouched remap rest (t + 1) _ _ j hlen'
          (by rw [hj]; simp only []; omega),
        write_offsets_go_untouched remap rest (t + 1) _ _ t hlen'
          (by rw [ht]; simp only []; omega)]
      rw [getD_set_ne _ _ _ _ _ (fun hcon => hjt hcon.symm),
        set_used_getD offset t acc remap hlen j, hj]
      simp only []
      rw [if_pos hr]
      rw [getD_set_self_of_lt _ _ _ _ (by rw [set_used_length]; exact htacc)]
    · have hit' : i0 < t := by omega
      by_cases hs : (remap.getD i0 none).isSome
      · rw [if_pos hs]
        exact ih (i0 + 1) offset acc t j r hlen ht hj hr (by omega)
          (by simp only [List.length_cons] at hrange; omega) htacc hjacc
      · rw [if_neg hs]
        refine ih (i0 + 1) _ _ t j r ?_ ht hj hr (by omega)
          (by simp only [List.length_cons] at hrange; omega) ?_ ?_
        · rw [List.length_set, set_used_length]
          exact hlen
        · rw [List.length_set, set_used_length]
          exact htacc
        · rw [List.length_set, set_used_length]
          exact hjacc

/-- Packaged offset relation for `write_offsets`. -/
theorem write_offsets_rel (conv : List (List Nat))
    (remap : List (Option RemappedTranslationItem))
    (t j : Nat) (r : RemappedTranslationItem)
    (hlen : remap.length ≤ conv.length)
    (ht : remap.getD t none = none)
    (hj : remap.getD j none = some r)
    (hr : r.str_index = t)
    (htn : t < conv.length) (hjn : j < conv.length) :
    (write_offsets conv remap).getD j 0 =
      (write_offsets conv remap).getD t 0 + (r.str_start_offset : Int) := by
  unfold write_offsets
  exact write_offsets_go_rel remap conv 0 0 _ t j r
    (by rw [List.length_replicate]; exact hlen) ht hj hr (by omega)
    (by omega) (by rw [List.length_replicate]; exact htn)
    (by rw [List.length_replicate]; exact hjn)

/-- `getD` of a `replicate` is the element. -/
theorem getD_replicate_self {α : Type} (n x : Nat) (a : α) :
    (List.replicate n a).getD x a = a := by
  by_cases hx : x < n
  · rw [List.getD_eq_getElem _ _ (by rw [List.length_replicate]; exact hx)]
    exact List.getElem_replicate a _
  · exact getD_out_of_range _ _ _ (by rw [List.length_replicate]; omega)

/-- Distinct positions of the sorted table carry distinct string
indices. -/
theorem backward_sorted_table_firsts_inj (conv : List (List Nat))
    (p q : Nat) (hp : p < (backward_sorted_table conv).length)
    (hq : q < (backward_sorted_table conv).length) (hne : p ≠ q) :
    ((backward_sorted_table conv).getD p (0, [])).1 ≠
      ((backward_sorted_table conv).getD q (0, [])).1 := by
  have hnd := backward_sorted_table_firsts_nodup conv
  rw [List.getD_eq_getElem _ _ hp, List.getD_eq_getElem _ _ hq]
  intro hcon
  have hp' : p < ((backward_sorted_table conv).map Prod.fst).length := by
    rw [List.length_map]; exact hp
  have hq' : q < ((backward_sorted_table conv).map Prod.fst).length := by
    rw [List.length_map]; exact hq
  have : ((backward_sorted_table conv).map Prod.fst)[p] =
      ((backward_sorted_table conv).map Prod.fst)[q] := by
    rw [List.getElem_map, List.getElem_map]
    exact hcon
  exact hne (hnd.getElem_inj_iff.mp this)

/-- The sorted table is pairwise ordered at positions. -/
theorem backward_sorted_table_le_of_pos (conv : List (List Nat))
    (p q : Nat) (hq : q < (backward_sorted_table conv).length)
    (hpq : p < q) :
    entry_le ((backward_sorted_table conv).getD p (0, []))
      ((backward_sorted_table conv).getD q (0, [])) := by
  have hp : p < (backward_sorted_table conv).length := by omega
  rw [List.getD_eq_getElem _ _ hp, List.getD_eq_getElem _ _ hq]
  exact (List.pairwise_iff_getElem.mp (backward_sorted_table_sorted conv))
    p q hp hq hpq

/-- `entry_le` implies the weak byte order of the second components. -/
theorem entry_le_bytesLe {x y : Nat × List Nat} (h : entry_le x y) :
    bytesLe x.2 y.2 := by
  rcases h with h | ⟨h, -⟩
  · exact Or.inl h
  · exact Or.inr h

/-- If at position `j` the run of entries extending `cp` ends (the next
entry exists but does not extend `cp`), then position `j`'s own string is
a root: its scan stops immediately and its remapping cell stays `None`. -/
theorem remap_target_root (conv : List (List Nat))
    (remap : List (Option RemappedTranslationItem))
    (hok : str_remapping (backward_sorted_table conv) conv.length =
      .ok remap)
    (j : Nat) (cp : List Nat)
    (hj1 : j + 1 < (backward_sorted_table conv).length)
    (hcp : cp <+: ((backward_sorted_table conv).getD j (0, [])).2)
    (hnot : ¬ cp <+: ((backward_sorted_table conv).getD (j + 1) (0, [])).2) :
    ((backward_sorted_table conv).getD j (0, [])).1 < conv.length ∧
      remap.getD ((backward_sorted_table conv).getD j (0, [])).1 none =
        none := by
  have hbl := backward_sorted_table_length conv
  have hj : j < (backward_sorted_table conv).length := by omega
  have hmem : (backward_sorted_table conv).getD j (0, []) ∈
      backward_sorted_table conv := by
    rw [List.getD_eq_getElem _ _ hj]
    exact List.getElem_mem hj
  have hidx := (backward_sorted_table_mem_elim conv _ hmem).1
  refine ⟨hidx, ?_⟩
  -- the scan starting at `j` stops at once
  have hscanj : scan_run (backward_sorted_table conv)
      ((backward_sorted_table conv).getD j (0, [])).2 j = .ok j := by
    unfold scan_run
    rw [List.drop_eq_getElem_cons hj1]
    unfold scan_run_aux
    rw [if_neg]
    intro hcon
    have hcon' : ((backward_sorted_table conv).getD j (0, [])).2 <+:
        ((backward_sorted_table conv).getD (j + 1) (0, [])).2 := by
      rw [List.getD_eq_getElem _ _ hj1]
      exact List.isPrefixOf_iff_prefix.mp hcon
    exact hnot (hcp.trans hcon')
  -- hence the remapping cell of `j`'s string index stays `None`
  unfold str_remapping at hok
  obtain ⟨j', hscan', hval⟩ := remap_loop_cell (backward_sorted_table conv)
    ((backward_sorted_table conv).length - 1) 0 _ remap j hok (by omega)
    (by omega)
    (fun q h1 h2 hq => backward_sorted_table_firsts_inj conv q j
      (by omega) hj hq)
    (by rw [List.length_replicate]; exact hidx)
  rw [hscanj] at hscan'
  have hj'j : j' = j := by
    cases hscan'
    rfl
  subst hj'j
  rw [if_neg (by omega)] at hval
  rw [hval]
  exact getD_replicate_self _ _ _

/-- Unfolding a successful `suffix_compress`. -/
theorem suffix_compress_ok_elim (conv : List (List Nat))
    (remap : List (Option RemappedTranslationItem)) (offs : List Int)
    (h : suffix_compress conv = .ok (remap, offs)) :
    str_remapping (backward_sorted_table conv) conv.length = .ok remap ∧
      offs = write_offsets conv remap := by
  unfold suffix_compress at h
  cases hrm : str_remapping (backward_sorted_table conv) conv.length with
  | error e =>
    rw [hrm] at h
    exact absurd h (by simp)
  | ok rm =>
    rw [hrm] at h
    simp only [Except.ok.injEq, Prod.mk.injEq] at h
    obtain ⟨h1, h2⟩ := h
    subst h1
    exact ⟨rfl, h2.symm⟩

/-- A successful remapping has one cell per string. -/
theorem str_remapping_length (conv : List (List Nat))
    (remap : List (Option RemappedTranslationItem))
    (hok : str_remapping (backward_sorted_table conv) conv.length =
      .ok remap) : remap.length = conv.length := by
  unfold str_remapping at hok
  rw [remap_loop_length _ _ _ _ _ hok, List.length_replicate]

/-- C5: in the computed remapping, every aliased string points to a root:
the target index is in range, differs from the aliased string, and its
own remapping cell is `None` — resolving an alias never needs more than
one indirection. -/
theorem suffix_compress_single_hop (conv : List (List Nat))
    (remap : List (Option RemappedTranslationItem)) (offs : List Int)
    (h : suffix_compress conv = .ok (remap, offs))
    (j : Nat) (r : RemappedTranslationItem)
    (hj : remap.getD j none = some r) :
    r.str_index < conv.length ∧ r.str_index ≠ j ∧
      remap.getD r.str_index none = none := by
  obtain ⟨hok, -⟩ := suffix_compress_ok_elim conv remap offs h
  have hbl := backward_sorted_table_length conv
  have hlen := str_remapping_length conv remap hok
  -- the aliased index is in range
  have hjn : j < conv.length := by
    by_contra hcon
    push_neg at hcon
    rw [getD_out_of_range _ _ _ (by omega)] at hj
    cases hj
  -- locate `j`'s entry in the sorted table
  obtain ⟨p, hp, hpe⟩ := List.mem_iff_getElem.mp
    (backward_sorted_table_mem_intro conv j hjn)
  have hpd : (backward_sorted_table conv).getD p (0, []) =
      (j, (conv.getD j []).reverse) := by
    rw [List.getD_eq_getElem _ _ hp]
    exact hpe
  -- `p` must be covered by the loop, otherwise the cell would be `None`
  by_cases hplast : p < (backward_sorted_table conv).length - 1
  · unfold str_remapping at hok
    obtain ⟨j', hscan', hval⟩ := remap_loop_cell (backward_sorted_table conv)
      ((backward_sorted_table conv).length - 1) 0 _ remap p hok (by omega)
      (by omega)
      (fun q h1 h2 hq => backward_sorted_table_firsts_inj conv q p
        (by omega) hp hq)
      (by rw [List.length_replicate, hpd]; exact hjn)
    rw [hpd] at hval
    simp only [] at hval
    by_cases hj'p : j' ≠ p
    · rw [if_pos hj'p] at hval
      rw [hval] at hj
      rw [Option.some.injEq] at hj
      obtain ⟨h1, h2, h3, h4⟩ := scan_run_ok _ _ _ _ hscan'
      have hppj' : p < j' := by omega
      have hcp : ((backward_sorted_table conv).getD p (0, [])).2 <+:
          ((backward_sorted_table conv).getD j' (0, [])).2 :=
        h4 j' hppj' (Nat.le_refl _)
      obtain ⟨hroot1, hroot2⟩ := remap_target_root conv remap
        (by unfold str_remapping; exact hok) j'
        ((backward_sorted_table conv).getD p (0, [])).2 h2 hcp h3
      have hne : ((backward_sorted_table conv).getD j' (0, [])).1 ≠ j := by
        have := backward_sorted_table_firsts_inj conv j' p (by omega) hp
          (by omega)
        rw [hpd] at this
        exact this
      rw [← hj]
      exact ⟨hroot1, hne, hroot2⟩
    · rw [if_neg hj'p] at hval
      rw [hval, getD_replicate_self] at hj
      cases hj
  · -- `p` is the last position: its cell is untouched
    exfalso
    unfold str_remapping at hok
    have huntouched := remap_loop_untouched (backward_sorted_table conv)
      ((backward_sorted_table conv).length - 1) 0 _ remap j hok
      (fun q h1 h2 => by
        have hqp : q ≠ p := by omega
        have := backward_sorted_table_firsts_inj conv q p (by omega) hp hqp
        rw [hpd] at this
        exact this)
    rw [huntouched, getD_replicate_self] at hj
    cases hj

/-- C1 (amended): in a completed run, a string whose encoded bytes are a
proper suffix of another entry's encoded bytes is never physically
emitted: it is aliased to a root whose encoded bytes also end with it,
with `str_start_offset = len(root) - len(self)`, and its resolved offset
is the root's offset plus that start offset.  The offset equation of the
original claim holds for the chosen root (the furthest suffix-extension
in reversed-lexicographic order), not for every such `B`. -/
theorem suffix_compress_suffix_alias (conv : List (List Nat))
    (remap : List (Option RemappedTranslationItem)) (offs : List Int)
    (h : suffix_compress conv = .ok (remap, offs))
    (iA iB : Nat) (hiA : iA < conv.length) (hiB : iB < conv.length)
    (hne : conv.getD iA [] ≠ conv.getD iB [])
    (hsuf : conv.getD iA [] <:+ conv.getD iB []) :
    ∃ r : RemappedTranslationItem,
      remap.getD iA none = some r ∧
      remap.getD r.str_index none = none ∧
      conv.getD iA [] <:+ conv.getD r.str_index [] ∧
      r.str_start_offset =
        (conv.getD r.str_index []).length - (conv.getD iA []).length ∧
      offs.getD iA 0 = offs.getD r.str_index 0 +
        (r.str_start_offset : Int) := by
  obtain ⟨hok, hoffs⟩ := suffix_compress_ok_elim conv remap offs h
  have hbl := backward_sorted_table_length conv
  have hlen := str_remapping_length conv remap hok
  obtain ⟨pA, hpA, hpAe⟩ := List.mem_iff_getElem.mp
    (backward_sorted_table_mem_intro conv iA hiA)
  obtain ⟨pB, hpB, hpBe⟩ := List.mem_iff_getElem.mp
    (backward_sorted_table_mem_intro conv iB hiB)
  have hpAd : (backward_sorted_table conv).getD pA (0, []) =
      (iA, (conv.getD iA []).reverse) := by
    rw [List.getD_eq_getElem _ _ hpA]
    exact hpAe
  have hpBd : (backward_sorted_table conv).getD pB (0, []) =
      (iB, (conv.getD iB []).reverse) := by
    rw [List.getD_eq_getElem _ _ hpB]
    exact hpBe
  have hrevpre : (conv.getD iA []).reverse <+: (conv.getD iB []).reverse :=
    List.reverse_prefix.mpr hsuf
  have hrevne : (conv.getD iA []).reverse ≠ (conv.getD iB []).reverse :=
    fun hcon => hne (List.reverse_inj.mp hcon)
  have hlt : bytesLt (conv.getD iA []).reverse (conv.getD iB []).reverse
      = true := bytesLt_of_proper_prefix _ _ hrevpre hrevne
  have hpAB : pA ≠ pB := by
    intro hcon
    subst hcon
    have := hpAd.symm.trans hpBd
    injection this with h1 h2
    exact hrevne h2
  have hpAltB : pA < pB := by
    rcases Nat.lt_or_ge pA pB with h' | h'
    · exact h'
    · exfalso
      have hle := backward_sorted_table_le_of_pos conv pB pA hpA
        (by omega)
      rw [hpAd, hpBd] at hle
      rcases hle with hle | ⟨hle, -⟩
      · have := bytesLt_trans _ _ _ hlt hle
        rw [bytesLt_irrefl] at this
        exact absurd this (by simp)
      · exact hrevne hle.symm
  unfold str_remapping at hok
  obtain ⟨j, hscan, hval⟩ := remap_loop_cell (backward_sorted_table conv)
    ((backward_sorted_table conv).length - 1) 0 _ remap pA hok (by omega)
    (by omega)
    (fun q h1 h2 hq => backward_sorted_table_firsts_inj conv q pA
      (by omega) hpA hq)
    (by rw [List.length_replicate, hpAd]; exact hiA)
  obtain ⟨hs1, hs2, hs3, hs4⟩ := scan_run_ok _ _ _ _ hscan
  have hjpB : pB ≤ j := by
    by_contra hcon
    push_neg at hcon
    have hle1 := backward_sorted_table_le_of_pos conv pA (j + 1)
      (by omega) (by omega)
    have hle2 : bytesLe
        ((backward_sorted_table conv).getD (j + 1) (0, [])).2
        (conv.getD iB []).reverse := by
      by_cases hj1B : j + 1 = pB
      · rw [hj1B, hpBd]
        exact Or.inr rfl
      · have := backward_sorted_table_le_of_pos conv (j + 1) pB hpB
          (by omega)
        rw [hpBd] at this
        exact entry_le_bytesLe this
    have hle1' : bytesLe (conv.getD iA []).reverse
        ((backward_sorted_table conv).getD (j + 1) (0, [])).2 := by
      have := entry_le_bytesLe hle1
      rw [hpAd] at this
      exact this
    have hsand := prefix_of_bytesLe_sandwich ((conv.getD iA []).reverse)
      _ _ hle1' hle2 hrevpre
    rw [hpAd] at hs3
    exact hs3 hsand
  have hjA : j ≠ pA := by omega
  rw [if_pos hjA] at hval
  rw [hpAd] at hval
  simp only [] at hval
  have hprefj : (conv.getD iA []).reverse <+:
      ((backward_sorted_table conv).getD j (0, [])).2 := by
    have := hs4 j (by omega) (Nat.le_refl _)
    rw [hpAd] at this
    exact this
  have hjlen : j < (backward_sorted_table conv).length := by omega
  have hmemj : (backward_sorted_table conv).getD j (0, []) ∈
      backward_sorted_table conv := by
    rw [List.getD_eq_getElem _ _ hjlen]
    exact List.getElem_mem hjlen
  obtain ⟨hjidx, hjsnd⟩ := backward_sorted_table_mem_elim conv _ hmemj
  have hroot := remap_target_root conv remap
    (by unfold str_remapping; exact hok) j ((conv.getD iA []).reverse)
    hs2 hprefj (by rw [hpAd] at hs3; exact hs3)
  refine ⟨⟨((backward_sorted_table conv).getD j (0, [])).1,
    ((backward_sorted_table conv).getD j (0, [])).2.length -
      (conv.getD iA []).reverse.length⟩, hval, hroot.2, ?_, ?_, ?_⟩
  · simp only []
    rw [← List.reverse_prefix]
    rw [← hjsnd]
    exact hprefj
  · simp only []
    rw [hjsnd, List.length_reverse, List.length_reverse]
  · simp only []
    subst hoffs
    exact write_offsets_rel conv remap _ iA _ (by omega) hroot.2 hval rfl
      hjidx hiA

/-- C1 as stated is false: with encoded table
`[[6], [5,6], [24,6], [26]]` (e.g. strings "f", "ef", "xf", "z" under a
one-byte-per-symbol encoding), `[6]` is a suffix of both `[5,6]` and
`[24,6]`; the scan aliases it to the reversed-lexicographically furthest
extension `[24,6]` (root offset 3, resolved offset 4), so its offset is
not `offset([5,6]) + len([5,6]) - len([6]) = 1`.  The "never emitted"
half of the claim does hold here. -/
theorem suffix_compress_offset_counterexample :
    suffix_compress [[6], [5, 6], [24, 6], [26]] =
      .ok ([some ⟨2, 1⟩, none, none, none], [4, 0, 3, 6]) ∧
    ([6] : List Nat) ≠ [5, 6] ∧
    ([6] : List Nat) <:+ [5, 6] ∧
    ([some (⟨2, 1⟩ : RemappedTranslationItem), none, none, none].getD 0
      none).isSome = true ∧
    ¬ (([4, 0, 3, 6] : List Int).getD 0 0 =
        ([4, 0, 3, 6] : List Int).getD 1 0 +
          ((([5, 6] : List Nat).length - ([6] : List Nat).length : Nat) :
            Int)) := by
  refine ⟨by rfl, by decide, ⟨[5], rfl⟩, by rfl, by decide⟩

/-- Witness for the amended C1 on the table `[[6], [24,6], [26]]`:
`[6]` is a proper suffix of `[24,6]`, the run completes, and `[6]` is
aliased to root index 1 with offset `0 + 1`. -/
theorem suffix_compress_suffix_alias_witness :
    ∃ r : RemappedTranslationItem,
      ([some ⟨1, 1⟩, none, none] :
          List (Option RemappedTranslationItem)).getD 0 none = some r ∧
      ([some ⟨1, 1⟩, none, none] :
          List (Option RemappedTranslationItem)).getD r.str_index none =
        none ∧
      ([[6], [24, 6], [26]] : List (List Nat)).getD 0 [] <:+
        ([[6], [24, 6], [26]] : List (List Nat)).getD r.str_index [] ∧
      r.str_start_offset =
        (([[6], [24, 6], [26]] : List (List Nat)).getD r.str_index
          []).length -
          (([[6], [24, 6], [26]] : List (List Nat)).getD 0 []).length ∧
      ([1, 0, 3] : List Int).getD 0 0 =
        ([1, 0, 3] : List Int).getD r.str_index 0 +
          (r.str_start_offset : Int) :=
  suffix_compress_suffix_alias [[6], [24, 6], [26]]
    [some ⟨1, 1⟩, none, none] [1, 0, 3] (by rfl) 0 1 (by norm_num)
    (by norm_num) (by decide) ⟨[24], rfl⟩

/-- Witness for C5 on the same table: the alias of string 0 targets root
index 1, whose own remapping cell is `None`. -/
theorem suffix_compress_single_hop_witness :
    (⟨1, 1⟩ : RemappedTranslationItem).str_index <
        ([[6], [24, 6], [26]] : List (List Nat)).length ∧
      (⟨1, 1⟩ : RemappedTranslationItem).str_index ≠ 0 ∧
      ([some ⟨1, 1⟩, none, none] :
          List (Option RemappedTranslationItem)).getD
        (⟨1, 1⟩ : RemappedTranslationItem).str_index none = none :=
  suffix_compress_single_hop [[6], [24, 6], [26]]
    [some ⟨1, 1⟩, none, none] [1, 0, 3] (by rfl) 0 ⟨1, 1⟩ (by rfl)

end MakeTranslation
